import Mathlib

/-!
Verification of the graph-table traversal engine of `reftools/lib/graphtab.py`.

Python strings are modelled as `List Char`; Python `dict`s and `set`s are
modelled as association lists / duplicate-free lists.  The module-level
`rules_dict` literal is transcribed verbatim; the functions that read it are
additionally parameterised by the rule table (suffix `R`), with the
unsuffixed names fixing the table to the source literal, mirroring the
module global.  Console printing (`verbose` output and diagnostics) is
dropped; `pyfits` component-file access in `Path.append` is modelled by an
abstract environment `env : Option Str → List Str` mapping a filename to
the column-name list `f[1].data.names[1:]`, and the `float(...)` conversion
of the numeric suffixes is left as the raw suffix strings (no claim
examines these values).  Python exceptions are modelled with `Except`:
`ObsmodeError` and `ValueError` carry their message, dictionary lookup
failure is `keyError`.
-/

namespace Graphtab

abbrev Str := List Char

/-- Python `s.split(sep)` for a one-character separator: always returns a
nonempty list, `''.split(sep) == ['']`. -/
def splitOn (sep : Char) : Str → List Str
  | [] => [[]]
  | c :: cs =>
    if c = sep then [] :: splitOn sep cs
    else
      match splitOn sep cs with
      | t :: ts => (c :: t) :: ts
      | [] => [[c]]

/-- Inverse of `splitOn`: join a token list with `','` separators. -/
def glue : List Str → Str
  | [] => []
  | [t] => t
  | t :: ts => t ++ ',' :: glue ts

/-- Fuel-driven body of Python `s.replace(pat, repl)`: scan left to right,
replace non-overlapping occurrences, never rescanning emitted text.  The
fuel only serves structural recursion; it is called with `s.length`, which
always suffices since each step consumes at least one character. -/
def replaceAllGo (pat repl : Str) : Nat → Str → Str
  | _, [] => []
  | 0, s => s
  | fuel + 1, c :: cs =>
    if pat ≠ [] ∧ pat.isPrefixOf (c :: cs) then
      repl ++ replaceAllGo pat repl fuel (cs.drop (pat.length - 1))
    else c :: replaceAllGo pat repl fuel cs

/-- Python `s.replace(pat, repl)`.  (The source only ever calls it with a
nonempty pattern ending in `','`; for `pat = ''` this model leaves `s`
unchanged, a case the source never reaches.) -/
def replaceAll (pat repl s : Str) : Str :=
  replaceAllGo pat repl s.length s

/-- Python `pat in s` (substring containment). -/
def isSubstr (pat : Str) : Str → Bool
  | [] => pat.isEmpty
  | c :: cs => pat.isPrefixOf (c :: cs) || isSubstr pat cs

/-- Python `d[k]` lookup in an insertion-ordered dict modelled as an
association list. -/
def lookupDict (l : List (Str × α)) (k : Str) : Option α :=
  (l.find? (fun kv => kv.1 == k)).map (fun kv => kv.2)

/-- Python `d[k] = v`: overwrite in place if the key exists, else append. -/
def dictInsert (k : Str) (v : α) : List (Str × α) → List (Str × α)
  | [] => [(k, v)]
  | kv :: rest => if kv.1 = k then (k, v) :: rest else kv :: dictInsert k v rest

/-- Python `set.add`: no-op when the element is present, else adjoin. -/
def setAdd (x : Str) (s : List Str) : List Str :=
  if s.contains x then s else s ++ [x]

/-- An `Edge` of the graph table (`graphtab.py` lines 89-96).  The
`destination` holds the destination node's name (the source holds an
object reference; by the data-model invariant every destination names a
node of the same graph, so dereferencing through the node map below is
equivalent). -/
structure Edge where
  kwd : Str
  optical : Option Str
  thermal : Option Str
  filename : Option Str
  pvar : Option Str
  destination : Option Str
deriving DecidableEq

/-- A `Node` (lines 36-56): `edges` models the insertion-ordered dict
`kwd -> Edge`; the mirror set `edgeset` is its key list. -/
structure Node where
  name : Str
  edges : List (Str × Edge)
deriving DecidableEq

instance : Inhabited Edge :=
  ⟨{ kwd := [], optical := none, thermal := none, filename := none,
     pvar := none, destination := none }⟩

instance : Inhabited Node := ⟨{ name := [], edges := [] }⟩

/-- A `Graph` (lines 132-167): `nodes` is the name-keyed node dict, `top`
the name of the designated start node (`self.top.name`). -/
structure Graph where
  nodes : List (Str × Node)
  top : Str
deriving DecidableEq

def lookupNode (g : Graph) (name : Str) : Option Node :=
  (g.nodes.find? (fun kv => kv.1 == name)).map (fun kv => kv.2)

/-- Value stored in `Path._params`: either the raw value string recorded
while splitting the obsmode (line 195), or the list of numeric suffixes
extracted from a component file (line 122; floats kept as strings). -/
inductive PVal where
  | raw (v : Str)
  | extracted (vs : List Str)
deriving DecidableEq

/-- A `Path` (lines 98-130). -/
structure Path where
  name : Str
  edgelist : List Edge
  params : List (Str × PVal)
  offset : Option Str
deriving DecidableEq

/-- Python exceptions raised by the engine. -/
inductive GErr where
  | obsmodeError (msg : Str)
  | valueError (msg : Str)
  | keyError
deriving DecidableEq

instance [DecidableEq ε] [DecidableEq α] : DecidableEq (Except ε α) := fun x y =>
  match x, y with
  | .ok a, .ok b =>
    if h : a = b then isTrue (by rw [h]) else isFalse (fun hc => h (Except.ok.inj hc))
  | .error a, .error b =>
    if h : a = b then isTrue (by rw [h]) else isFalse (fun hc => h (Except.error.inj hc))
  | .ok _, .error _ => isFalse (fun hc => Except.noConfusion hc)
  | .error _, .ok _ => isFalse (fun hc => Except.noConfusion hc)

/-- The sentinel edge `Edge('default', [None, None, None, None], None)`
used at lines 78 and 86 to mark the end of a path. -/
def sentinelEdge : Edge :=
  { kwd := ("default").data, optical := none, thermal := none,
    filename := none, pvar := none, destination := none }

def ambiguousMsg : Str :=
  ("Ambiguous...Too many edges match. Check for problems with graph table.").data

/-- `Node.select_edge` (lines 58-87).  `count` is the caller's running
matched-keyword count; the diagnostic print of the no-default branch is
dropped. -/
def select_edge (nd : Node) (kwdset : List Str) (pmode : Bool) (count : Nat) :
    Except GErr Edge :=
  match nd.edges.filter (fun kv => kwdset.contains kv.1) with
  | [] =>
    match lookupDict nd.edges (("default").data) with
    | some e =>
      if !pmode || (pmode && decide (count < kwdset.length)) then .ok e
      else .ok sentinelEdge
    | none => .ok sentinelEdge
  | [kv] => .ok kv.2
  | _ => .error (.valueError ambiguousMsg)

/-- `Path.append` (lines 110-122).  `env` abstracts
`pyfits.open(filename)[1].data.names[1:]`; the extracted values keep the
textual suffix `pname.split('#')[-1]` instead of its float image. -/
def pathAppend (env : Option Str → List Str) (p : Path) (e : Edge) : Path :=
  let p1 : Path := { p with edgelist := p.edgelist ++ [e] }
  match e.pvar with
  | none => p1
  | some pv =>
    if (p1.params.any (fun kv => kv.1 == pv)) && pv ≠ [] && pv ≠ [' '] then
      let cnames := env e.filename
      let parvalues :=
        (cnames.filter (fun pn => isSubstr pv pn)).map
          (fun pn => (splitOn '#' pn).getLastD [])
      { p1 with params := dictInsert pv (PVal.extracted parvalues) p1.params }
    else p1

def unpackMsg : Str := ("too many values to unpack").data

/-- The parameterized-keyword preprocessing loop of `Graph.traverse`
(lines 189-196), iterating over `plist`: `k, v = p.split('#')` (a token
with more than one `'#'` raises a `ValueError` here), `k += '#'`,
`params[k.upper()] = v`, and the base name replaces the raw token in the
keyword set. -/
def paramLoop : List Str → List Str × List (Str × Str) →
    Except GErr (List Str × List (Str × Str))
  | [], acc => .ok acc
  | p :: rest, acc =>
    match splitOn '#' p with
    | [k, v] =>
      let k := k ++ ['#']
      paramLoop rest (setAdd k (acc.1.erase p), dictInsert (k.map Char.toUpper) v acc.2)
    | _ => .error (.valueError unpackMsg)

/-- Lines 186-196 of `Graph.traverse`: build the keyword set and process
its parameterized members. -/
def paramSplit (kwdset : List Str) : Except GErr (List Str × List (Str × Str)) :=
  paramLoop (kwdset.filter (fun k => k.contains '#')) (kwdset, [])

/-- Mutable state of the `traverse` loop (lines 180-234): the current
node, the sanity counter `count`, the matched-keyword counter `kwdcount`,
the accumulating `Path`, and `edge_list`.  `offsetWrites` is ghost
instrumentation counting executions of the `ans.offset = ...` assignment
at line 228; it affects nothing else. -/
structure TravState where
  innode : Option Node
  count : Nat
  kwdcount : Nat
  path : Path
  edgeList : List Str
  offsetWrites : Nat
deriving DecidableEq

/-- The `while` loop of `Graph.traverse` (lines 208-234).  The guard is
the source's `innode is not None and count <= len(self)`; since `count`
increases by one per iteration, the loop runs at most
`len(self) + 1` times, so the structural fuel (always called with
`g.nodes.length + 1`) runs out exactly when the count guard also fails,
and the fuel-exhaustion arm returns the same accumulated state the guard
arm would.  The source's `except KeyError: break` around `select_edge` is
dead code (the current `select_edge` raises only `ValueError`). -/
def travLoop (g : Graph) (env : Option Str → List Str) (kwdset : List Str)
    (pmode : Bool) : Nat → TravState → Except GErr TravState
  | 0, st => .ok st
  | fuel + 1, st =>
    match st.innode with
    | none => .ok st
    | some nd =>
      if st.count ≤ g.nodes.length then
        match select_edge nd kwdset pmode st.kwdcount with
        | .error e => .error e
        | .ok edge =>
          let path := pathAppend env st.path edge
          let matched := kwdset.contains edge.kwd && !(st.edgeList.contains edge.kwd)
            && !(edge.kwd == ("default").data)
          let kwdcount := if matched then st.kwdcount + 1 else st.kwdcount
          let path :=
            if matched then
              match edge.destination with
              | some d => { path with offset := some d }
              | none => path
            else path
          let ow :=
            if matched && edge.destination.isSome then st.offsetWrites + 1
            else st.offsetWrites
          travLoop g env kwdset pmode fuel
            { innode := edge.destination.bind (fun d => lookupNode g d),
              count := st.count + 1, kwdcount := kwdcount, path := path,
              edgeList := st.edgeList ++ [edge.kwd], offsetWrites := ow }
      else .ok st

/-- `Graph.traverse` (lines 169-236) returning the full loop state; the
`verbose` printing is dropped.  `self[self.top.name]` is the initial
node lookup (a missing top name raises `KeyError`). -/
def traverseState (g : Graph) (env : Option Str → List Str) (obsmode : Str)
    (pmode : Bool) : Except GErr TravState :=
  match paramSplit ((splitOn ',' obsmode).dedup) with
  | .error e => .error e
  | .ok (kwdset, params) =>
    let path0 : Path :=
      { name := obsmode, edgelist := [],
        params := params.map (fun kv => (kv.1, PVal.raw kv.2)), offset := none }
    match lookupNode g g.top with
    | none => .error .keyError
    | some start =>
      travLoop g env kwdset pmode (g.nodes.length + 1)
        { innode := some start, count := 0, kwdcount := 0, path := path0,
          edgeList := [], offsetWrites := 0 }

/-- `Graph.traverse`: the returned `Path`. -/
def traverse (g : Graph) (env : Option Str → List Str) (obsmode : Str)
    (pmode : Bool) : Except GErr Path :=
  (traverseState g env obsmode pmode).map (fun st => st.path)

/-- A rule table maps a mode key to its `(junk, exclude)` keyword lists. -/
abbrev Rules := List (Str × (List Str × List Str))

/-- The module-level `rules_dict` literal (lines 14-31). -/
def rules_dict : Rules :=
  [ (("default").data, ([("").data, ("None").data, ("default").data], [("aper#").data])),
    (("acs,hrc").data, ([], [])),
    (("acs,hrc,f555w").data, ([], [])),
    (("acs,sbc").data, ([], [])),
    (("acs,wfc1").data, ([("wfc1").data], [("wfc2").data])),
    (("acs,wfc2").data, ([("wfc2").data], [("wfc1").data])),
    (("wfc3,uvis1").data, ([("uvis1").data], [("uvis2").data])),
    (("wfc3,uvis2").data, ([("uvis2").data], [("uvis1").data])),
    (("wfc3,ir").data, ([], [])),
    (("nicmos,1").data, ([], [])),
    (("nicmos,2").data, ([], [])),
    (("nicmos,3").data, ([], [])),
    (("cos,boa").data, ([], [])),
    (("cos,psa").data, ([], [])),
    (("wfpc2,*").data, ([], [])),
    (("stis,*").data, ([], [])) ]

/-- Key resolution of `get_obsmodes` (lines 258-263): exact match, else
with a `',*'` wildcard suffix appended. -/
def resolveKeyR (rules : Rules) (obsmode : Str) : Option Str :=
  if (lookupDict rules obsmode).isSome then some obsmode
  else if (lookupDict rules (obsmode ++ (",*").data)).isSome then
    some (obsmode ++ (",*").data)
  else none

/-- `self.obsrules_junk` (lines 265-266): the default entry's junk list
followed by the resolved entry's. -/
def mergedJunkR (rules : Rules) (key : Str) : List Str :=
  ((lookupDict rules (("default").data)).getD ([], [])).1 ++
    ((lookupDict rules key).getD ([], [])).1

/-- `self.obsrules_excl` (lines 267-268). -/
def mergedExclR (rules : Rules) (key : Str) : List Str :=
  ((lookupDict rules (("default").data)).getD ([], [])).2 ++
    ((lookupDict rules key).getD ([], [])).2

def resolveKey : Str → Option Str := resolveKeyR rules_dict
def mergedJunk : Str → List Str := mergedJunkR rules_dict
def mergedExcl : Str → List Str := mergedExclR rules_dict

/-- `Graph.recurse` (lines 344-370): depth-first enumeration of candidate
obsmode strings.  `node` is dereferenced through the node map (see
`Edge.destination`).  The fuel bounds the recursion depth: the Python
recursion either terminates (and then agrees with this model for every
sufficiently large fuel) or overflows the interpreter stack on a cyclic
graph; every theorem below quantifies over the fuel. -/
def recurseF (g : Graph) (excl junk : List Str) :
    Nat → Option Node → Str → List Str
  | 0, _, _ => []
  | _, none, _ => []
  | fuel + 1, some nd, so_far =>
    (nd.edges.map (fun kv =>
      if excl.contains kv.1 then []
      else
        let further := so_far ++ ',' :: kv.1
        (if junk.contains kv.1 then [] else [further]) ++
          recurseF g excl junk fuel (kv.2.destination.bind (fun d => lookupNode g d))
            further)).flatten

/-- The per-junk replacement pattern of `Graph.process` (lines 304-312):
junk `''` turns `',,'` into `','`, any other junk `j` deletes `j ++ ','`. -/
def junkPat (j : Str) : Str × Str :=
  if j = [] then ([',', ','], [',']) else (j ++ [','], [])

/-- The junk-stripping passes of `Graph.process` (lines 300-312); the
numpy round-trip is elementwise string replacement. -/
def stripJunk (junk : List Str) (modes : List Str) : List Str :=
  junk.foldl (fun ms j => ms.map (fun m => replaceAll (junkPat j).1 (junkPat j).2 m))
    modes

/-- `Graph.process` (lines 295-320): strip junk, then prepend the prefix
to every candidate and add the bare prefix as its own configuration. -/
def process (junk : List Str) (pfxOpt : Option Str) (modes : List Str) : List Str :=
  let ms := stripJunk junk modes
  match pfxOpt with
  | some p => p :: ms.map (fun m => p ++ m)
  | none => ms

def unsupportedMsg (obsmode : Str) : Str :=
  ("Unsupported obsmode string: ").data ++ obsmode

def excludedMsg (obsmode : Str) : Str :=
  ("Entered obsmode includes excluded parameters: ").data ++ obsmode

/-- `Graph.get_obsmodes` (lines 238-292) over an explicit rule table:
resolve the key, merge the junk/exclude lists, validate the input tokens
against the exclude list, find the enumeration offset by a partial-mode
traverse, look the offset up in the node map (`self[offset]`; an `offset`
that stayed `None` misses the string-keyed map), recurse, post-process. -/
def get_obsmodesR (rules : Rules) (g : Graph) (env : Option Str → List Str)
    (fuel : Nat) (obsmode : Str) (pfx : Bool) : Except GErr (List Str) :=
  match resolveKeyR rules obsmode with
  | none => .error (.obsmodeError (unsupportedMsg obsmode))
  | some key =>
    let junk := mergedJunkR rules key
    let excl := mergedExclR rules key
    if (splitOn ',' obsmode).any (fun o => excl.contains o) then
      .error (.obsmodeError (excludedMsg obsmode))
    else
      let instrmode : Option Str := if pfx then some obsmode else none
      match traverseState g env obsmode true with
      | .error e => .error e
      | .ok st =>
        match st.path.offset with
        | none => .error .keyError
        | some off =>
          match lookupNode g off with
          | none => .error .keyError
          | some startnode =>
            .ok (process junk instrmode (recurseF g excl junk fuel (some startnode) []))

/-- `Graph.get_obsmodes` over the module's own `rules_dict`. -/
def get_obsmodes (g : Graph) (env : Option Str → List Str) (fuel : Nat)
    (obsmode : Str) (pfx : Bool) : Except GErr (List Str) :=
  get_obsmodesR rules_dict g env fuel obsmode pfx

/-! Concrete instances used by witnesses and counterexamples. -/

/-- Trivial component-file environment: no parameterized component files. -/
def envT : Option Str → List Str := fun _ => []

def mkEdge (k : Str) (dest : Option Str) : Edge :=
  { kwd := k, optical := none, thermal := none, filename := none,
    pvar := none, destination := dest }

/-- A node entry with a single outgoing edge labelled `k`. -/
def entry1 (n k : Str) (dest : Option Str) : Str × Node :=
  (n, { name := n, edges := [(k, mkEdge k dest)] })

/-- Chain `top --acs--> A --wfc1--> B --xwfc2--> (terminal)`: the keyword
`xwfc2` contains the excluded keyword `wfc2` as a substring without being
equal to it. -/
def gC1 : Graph :=
  { nodes :=
      [ entry1 (("top").data) (("acs").data) (some (("A").data)),
        entry1 (("A").data) (("wfc1").data) (some (("B").data)),
        entry1 (("B").data) (("xwfc2").data) none ],
    top := ("top").data }

/-- Chain `top --acs--> A --wfc1--> B` with `B` terminal: both matched
keywords have destinations, so `offset` is written twice. -/
def gC4 : Graph :=
  { nodes :=
      [ entry1 (("top").data) (("acs").data) (some (("A").data)),
        entry1 (("A").data) (("wfc1").data) (some (("B").data)),
        (("B").data, { name := ("B").data, edges := [] }) ],
    top := ("top").data }

/-- Chain `top --acs--> A --wfc1--> B --Nwfc1--> C --one--> (terminal)`:
stripping the junk `'wfc1,'` from `',Nwfc1,one'` manufactures the junk
token `None`. -/
def gC7 : Graph :=
  { nodes :=
      [ entry1 (("top").data) (("acs").data) (some (("A").data)),
        entry1 (("A").data) (("wfc1").data) (some (("B").data)),
        entry1 (("B").data) (("Nwfc1").data) (some (("C").data)),
        entry1 (("C").data) (("one").data) none ],
    top := ("top").data }

/-- A single edgeless node: a partial traverse matches nothing, so the
path's `offset` stays `None`. -/
def g9 : Graph :=
  { nodes := [(("top").data, { name := ("top").data, edges := [] })],
    top := ("top").data }

/-- A node with two edges whose keywords can both be requested. -/
def ndAmb : Node :=
  { name := ("n").data,
    edges := [(("a").data, mkEdge (("a").data) none),
              (("b").data, mkEdge (("b").data) none)] }

def edX : Edge := mkEdge (("x").data) none
def edDef : Edge := mkEdge (("default").data) (some (("D").data))

/-- A node with a non-matching edge and a `default` edge. -/
def ndDef : Node :=
  { name := ("n").data,
    edges := [(("x").data, edX), (("default").data, edDef)] }

/-- A node with a non-matching edge and no `default` edge. -/
def ndNoDef : Node :=
  { name := ("n").data, edges := [(("x").data, edX)] }

/-- A test rule table whose `acs,wfc1` entry excludes one of the key's
own keywords, making the excluded-parameter validation reachable. -/
def rulesTest : Rules :=
  [ (("default").data, ([], [])),
    (("acs,wfc1").data, ([], [("wfc1").data])) ]

def exceptIsError : Except ε α → Bool
  | .error _ => true
  | .ok _ => false

/-! Claim theorems. -/

/-- C1 counterexample: the claim quantifies over substring containment
(`no string ... contains k`), but `recurse` only skips an edge whose
keyword is *equal* to an excluded keyword.  On a graph with an edge
keyword `xwfc2`, `get_obsmodes("acs,wfc1")` returns `,xwfc2`, which
contains the excluded keyword `wfc2` as a substring. -/
theorem C1_counterexample :
    get_obsmodes gC1 envT 5 (("acs,wfc1").data) false = .ok [(",xwfc2").data] ∧
      isSubstr (("wfc2").data) ((",xwfc2").data) = true ∧
      ("wfc2").data ∈ mergedExcl (("acs,wfc1").data) := by
  refine ⟨by decide, by decide, by decide⟩

/-- C2: `select_edge` fails (with the fatal ambiguity `ValueError`)
exactly when more than one of the node's edge keywords lies in the
requested keyword set, and when exactly one edge matches it returns that
edge without error. -/
theorem C2_select_edge_ambiguity (nd : Node) (kwdset : List Str) (pmode : Bool)
    (count : Nat) (hnd : (nd.edges.map Prod.fst).Nodup) :
    (exceptIsError (select_edge nd kwdset pmode count) = true ↔
       1 < ((nd.edges.map Prod.fst).filter (fun k => kwdset.contains k)).length) ∧
    (∀ k e, nd.edges.filter (fun kv => kwdset.contains kv.1) = [(k, e)] →
       select_edge nd kwdset pmode count = .ok e) := by
  have hlen : ((nd.edges.map Prod.fst).filter (fun k => kwdset.contains k)).length
      = (nd.edges.filter (fun kv => kwdset.contains kv.1)).length := by
    rw [List.filter_map, List.length_map]
    rfl
  constructor
  · rw [hlen]
    cases hF : nd.edges.filter (fun kv => kwdset.contains kv.1) with
    | nil =>
      cases hd : lookupDict nd.edges (("default").data) with
      | none => simp only [select_edge, hF, hd, exceptIsError]; simp
      | some e =>
        simp only [select_edge, hF, hd]
        split <;> simp [exceptIsError]
    | cons kv rest =>
      cases rest with
      | nil => simp only [select_edge, hF, exceptIsError]; simp
      | cons kv2 rest2 =>
        simp only [select_edge, hF, exceptIsError, List.length_cons]
        constructor
        · intro _; omega
        · intro _; trivial
  · intro k e hF
    simp only [select_edge, hF]

/-- C2 witness: a node with edges `a` and `b`, both requested, fails. -/
theorem C2_witness :
    exceptIsError (select_edge ndAmb [("a").data, ("b").data] false 0) = true :=
  (C2_select_edge_ambiguity ndAmb [("a").data, ("b").data] false 0 (by decide)).1.mpr
    (by decide)

/-- C3: with no matching edge, `select_edge` follows the `default` edge
when partial mode is off or the matched-so-far count is below the keyword
set's size, returns the terminal sentinel in partial mode once the count
reaches that size, and returns the sentinel without error when no
`default` edge exists. -/
theorem C3_select_edge_default (nd : Node) (kwdset : List Str) (pmode : Bool)
    (count : Nat) (hF : nd.edges.filter (fun kv => kwdset.contains kv.1) = []) :
    (∀ e, lookupDict nd.edges (("default").data) = some e →
       ((pmode = false ∨ count < kwdset.length) →
          select_edge nd kwdset pmode count = .ok e) ∧
       (pmode = true → kwdset.length ≤ count →
          select_edge nd kwdset pmode count = .ok sentinelEdge)) ∧
    (lookupDict nd.edges (("default").data) = none →
       select_edge nd kwdset pmode count = .ok sentinelEdge) := by
  constructor
  · intro e hd
    constructor
    · rintro (h | h)
      · subst h
        simp only [select_edge, hF, hd]
        simp
      · have hc : decide (count < kwdset.length) = true := decide_eq_true h
        simp only [select_edge, hF, hd, hc]
        simp
    · intro hp hc
      subst hp
      have hc' : decide (count < kwdset.length) = false :=
        decide_eq_false (Nat.not_lt.mpr hc)
      simp only [select_edge, hF, hd, hc']
      simp
  · intro hd
    simp only [select_edge, hF, hd]

/-- C3 witness: the three no-match outcomes at concrete nodes. -/
theorem C3_witness :
    select_edge ndDef [("z").data] false 0 = .ok edDef ∧
      select_edge ndDef [("z").data] true 1 = .ok sentinelEdge ∧
      select_edge ndNoDef [("z").data] false 0 = .ok sentinelEdge :=
  ⟨((C3_select_edge_default ndDef [("z").data] false 0 (by decide)).1 edDef
      (by decide)).1 (Or.inl rfl),
   ((C3_select_edge_default ndDef [("z").data] true 1 (by decide)).1 edDef
      (by decide)).2 rfl (by decide),
   (C3_select_edge_default ndNoDef [("z").data] false 0 (by decide)).2 (by decide)⟩

/-- C4 counterexample: on `top --acs--> A --wfc1--> B`, the walk for
`acs,wfc1` assigns `offset` twice (once per matched keyword), refuting
"assigned at most once"; the first assignment happens at the first match,
before every keyword has been matched. -/
theorem C4_counterexample :
    (traverseState gC4 envT (("acs,wfc1").data) false).map
        (fun st => st.offsetWrites) = .ok 2 := by
  decide

/-- C6 counterexample: a token with two `'#'` characters makes the
`k, v = p.split('#')` unpacking at line 193 raise a `ValueError`, so
`traverse` produces no `Path` at all for such an input. -/
theorem C6_counterexample :
    traverse g9 envT (("acs,a#1#2").data) false = .error (.valueError unpackMsg) := by
  decide

/-- C7 counterexample: junk stripping is textual replacement of
`junk ++ ','`, so on candidates `,Nwfc1` and `,Nwfc1,one` the `wfc1,`
pass manufactures `,None` — the post-processed output contains the junk
keyword token `None`. -/
theorem C7_counterexample :
    get_obsmodes gC7 envT 5 (("acs,wfc1").data) false =
        .ok [(",Nwfc1").data, (",None").data] ∧
      ("None").data ∈ mergedJunk (("acs,wfc1").data) ∧
      ("None").data ∈ splitOn ',' ((",None").data) := by
  refine ⟨by decide, by decide, by decide⟩

/-- C8: when the key resolves and some top-level keyword of the input is
in the merged exclude list, `get_obsmodes` fails with the
excluded-parameter `ObsmodeError` naming the input string — for every
graph and component-file environment, i.e. before any traversal or
enumeration touches the graph. -/
theorem C8_excluded_validation (rules : Rules) (g : Graph)
    (env : Option Str → List Str) (fuel : Nat) (obsmode : Str) (pfx : Bool)
    (key : Str) (hk : resolveKeyR rules obsmode = some key)
    (hx : (splitOn ',' obsmode).any (fun o => (mergedExclR rules key).contains o)
        = true) :
    get_obsmodesR rules g env fuel obsmode pfx =
      .error (.obsmodeError (excludedMsg obsmode)) := by
  simp only [get_obsmodesR, hk, hx]
  simp

/-- C8 witness: a rule table whose `acs,wfc1` entry excludes `wfc1`. -/
theorem C8_witness :
    get_obsmodesR rulesTest g9 envT 0 (("acs,wfc1").data) false =
      .error (.obsmodeError (excludedMsg (("acs,wfc1").data))) :=
  C8_excluded_validation rulesTest g9 envT 0 (("acs,wfc1").data) false
    (("acs,wfc1").data) (by decide) (by decide)

/-- C9: when the partial-mode traverse inside `get_obsmodes` leaves the
path's `offset` at `None`, `get_obsmodes` fails with the untyped
`KeyError` of looking up `None` in the string-keyed node map, and not
with a typed `ObsmodeError`. -/
theorem C9_offset_none_keyerror (g : Graph) (env : Option Str → List Str)
    (fuel : Nat) (obsmode : Str) (pfx : Bool) (key : Str)
    (hk : resolveKey obsmode = some key)
    (hx : (splitOn ',' obsmode).any (fun o => (mergedExcl key).contains o) = false)
    (ht : (traverseState g env obsmode true).map (fun st => st.path.offset)
        = .ok none) :
    get_obsmodes g env fuel obsmode pfx = .error .keyError ∧
      ∀ m, get_obsmodes g env fuel obsmode pfx ≠ .error (.obsmodeError m) := by
  simp only [resolveKey] at hk
  simp only [mergedExcl] at hx
  have hmain : get_obsmodes g env fuel obsmode pfx = .error .keyError := by
    cases hT : traverseState g env obsmode true with
    | error e => rw [hT] at ht; simp [Except.map] at ht
    | ok st =>
      rw [hT] at ht
      have hoff : st.path.offset = none := by
        simpa [Except.map] using ht
      simp only [get_obsmodes, get_obsmodesR, hk, hx, hT, hoff]
      simp
  refine ⟨hmain, fun m h => ?_⟩
  rw [hmain] at h
  exact GErr.noConfusion (Except.error.inj h)

/-- C9 witness: an edgeless graph matches no keyword of `acs,hrc`. -/
theorem C9_witness :
    get_obsmodes g9 envT 0 (("acs,hrc").data) false = .error .keyError :=
  (C9_offset_none_keyerror g9 envT 0 (("acs,hrc").data) false (("acs,hrc").data)
    (by decide) (by decide) (by decide)).1

lemma pathAppend_edgelist (env : Option Str → List Str) (p : Path) (e : Edge) :
    (pathAppend env p e).edgelist = p.edgelist ++ [e] := by
  simp only [pathAppend]
  cases e.pvar with
  | none => rfl
  | some pv => dsimp only; split <;> rfl

/-- One loop iteration appends exactly one edge, so the accumulated path
grows by at most the remaining fuel. -/
lemma travLoop_edges_le (g : Graph) (env : Option Str → List Str)
    (kwdset : List Str) (pmode : Bool) :
    ∀ fuel st st', travLoop g env kwdset pmode fuel st = .ok st' →
      st'.path.edgelist.length ≤ st.path.edgelist.length + fuel := by
  intro fuel
  induction fuel with
  | zero =>
    intro st st' h
    simp only [travLoop] at h
    cases h
    omega
  | succ n ih =>
    intro st st' h
    simp only [travLoop] at h
    cases hin : st.innode with
    | none =>
      simp only [hin] at h
      cases h
      omega
    | some nd =>
      simp only [hin] at h
      by_cases hc : st.count ≤ g.nodes.length
      · rw [if_pos hc] at h
        cases hsel : select_edge nd kwdset pmode st.kwdcount with
        | error e => simp only [hsel] at h; cases h
        | ok edge =>
          simp only [hsel] at h
          have hrec := ih _ _ h
          have hpe :
              (if kwdset.contains edge.kwd && !(st.edgeList.contains edge.kwd)
                  && !(edge.kwd == ("default").data) then
                match edge.destination with
                | some d => { pathAppend env st.path edge with offset := some d }
                | none => pathAppend env st.path edge
              else pathAppend env st.path edge).edgelist
              = st.path.edgelist ++ [edge] := by
            split
            · cases edge.destination <;> simp [pathAppend_edgelist]
            · simp [pathAppend_edgelist]
          rw [hpe] at hrec
          simp only [List.length_append, List.length_cons, List.length_nil] at hrec
          omega
      · rw [if_neg hc] at h
        cases h
        omega

/-- Once the sanity counter exceeds the node count, the loop returns the
accumulated state unchanged and without error. -/
lemma travLoop_trunc (g : Graph) (env : Option Str → List Str)
    (kwdset : List Str) (pmode : Bool) :
    ∀ fuel st, g.nodes.length < st.count →
      travLoop g env kwdset pmode fuel st = .ok st := by
  intro fuel st h
  cases fuel with
  | zero => rfl
  | succ n =>
    simp only [travLoop]
    cases hin : st.innode with
    | none => simp only [hin]
    | some nd =>
      simp only [hin]
      rw [if_neg (Nat.not_le.mpr h)]

/-- C5: `traverse` terminates on every graph (it is a total function of
the loop fuel, which the count guard makes redundant): a returned `Path`
holds at most `len(graph) + 1` edges, and a state whose counter exceeds
the node count makes the loop stop silently with the accumulated state,
never with an error. -/
theorem C5_traverse_bounded (g : Graph) (env : Option Str → List Str)
    (obsmode : Str) (pmode : Bool) :
    (∀ p, traverse g env obsmode pmode = .ok p →
       p.edgelist.length ≤ g.nodes.length + 1) ∧
    (∀ kwdset fuel st, g.nodes.length < st.count →
       travLoop g env kwdset pmode fuel st = .ok st) := by
  constructor
  · intro p h
    simp only [traverse, traverseState] at h
    cases hps : paramSplit ((splitOn ',' obsmode).dedup) with
    | error e => simp only [hps] at h; simp [Except.map] at h
    | ok kp =>
      obtain ⟨kw, ps⟩ := kp
      simp only [hps] at h
      cases hlk : lookupNode g g.top with
      | none => simp only [hlk] at h; simp [Except.map] at h
      | some start =>
        simp only [hlk] at h
        cases hT : travLoop g env kw pmode (g.nodes.length + 1)
            { innode := some start, count := 0, kwdcount := 0,
              path := { name := obsmode, edgelist := [],
                        params := ps.map (fun kv => (kv.1, PVal.raw kv.2)),
                        offset := none },
              edgeList := [], offsetWrites := 0 } with
        | error e => simp only [hT] at h; simp [Except.map] at h
        | ok st =>
          simp only [hT] at h
          simp only [Except.map, Except.ok.injEq] at h
          subst h
          simpa using travLoop_edges_le g env kw pmode _ _ _ hT
  · intro kwdset fuel st h
    exact travLoop_trunc g env kwdset pmode fuel st h

/-- Default path and a high-count state for the C5 witness. -/
def pathD : Path := { name := [], edgelist := [], params := [], offset := none }

def stHigh : TravState :=
  { innode := none, count := 4, kwdcount := 0, path := pathD,
    edgeList := [], offsetWrites := 0 }

instance : Inhabited Path := ⟨pathD⟩

/-- The concrete path of the `acs,wfc1` walk on `gC4`. -/
def pC4 : Path :=
  (traverse gC4 envT (("acs,wfc1").data) false).toOption.getD pathD

/-- C5 witness: the bound and the silent truncation at concrete inputs. -/
theorem C5_witness :
    pC4.edgelist.length ≤ gC4.nodes.length + 1 ∧
      travLoop gC4 envT [] false 4 stHigh = .ok stHigh :=
  ⟨(C5_traverse_bounded gC4 envT (("acs,wfc1").data) false).1 pC4 (by decide),
   (C5_traverse_bounded gC4 envT [] false).2 [] 4 stHigh (by decide)⟩

/-- Number of requested keywords already recorded in `edge_list`. -/
def countIn (kws el : List Str) : Nat :=
  (kws.filter (fun k => el.contains k)).length

lemma countIn_mono (kws el : List Str) (l2 : List Str) :
    countIn kws el ≤ countIn kws (el ++ l2) := by
  refine List.Sublist.length_le (List.monotone_filter_right kws ?_)
  intro a ha
  have : a ∈ el := by simpa using ha
  simp [List.mem_append, this]

lemma countIn_le_length (kws el : List Str) : countIn kws el ≤ kws.length :=
  List.length_filter_le _ kws

lemma countIn_append_new (kws el : List Str) (k : Str) (hnd : kws.Nodup)
    (hk : k ∈ kws) (hel : k ∉ el) :
    countIn kws el + 1 ≤ countIn kws (el ++ [k]) := by
  induction kws with
  | nil => cases hk
  | cons a l ih =>
    rcases List.nodup_cons.mp hnd with ⟨hal, hl⟩
    by_cases hak : a = k
    · subst hak
      have h1 : el.contains a = false := by simpa using hel
      have h2 : (el ++ [a]).contains a = true := by simp
      simp only [countIn, List.filter_cons, h1, h2]
      simp only [Bool.false_eq_true, if_false, if_true, List.length_cons]
      have hsub : List.Sublist (l.filter (fun k => el.contains k))
          (l.filter (fun k => (el ++ [a]).contains k)) := by
        refine List.monotone_filter_right l ?_
        intro b hb
        have : b ∈ el := by simpa using hb
        simp [this]
      have := List.Sublist.length_le hsub
      omega
    · have hkl : k ∈ l := by
        cases List.mem_cons.mp hk with
        | inl h => exact absurd h.symm hak
        | inr h => exact h
      have hc : (el ++ [k]).contains a = el.contains a := by
        by_cases hmem : a ∈ el
        · simp [hmem]
        · have h1 : el.contains a = false := by simpa using hmem
          have hnotmem : a ∉ el ++ [k] := by
            intro hmem2
            rcases List.mem_append.mp hmem2 with h | h
            · exact hmem h
            · exact hak (List.mem_singleton.mp h)
          have h2 : (el ++ [k]).contains a = false := by simpa using hnotmem
          rw [h1, h2]
      simp only [countIn, List.filter_cons, hc]
      have := ih hl hkl
      by_cases hca : el.contains a = true
      · simp only [hca, if_true, List.length_cons]
        simp only [countIn] at this
        omega
      · have : el.contains a = false := by simpa using hca
        simp only [this, Bool.false_eq_true, if_false]
        simp only [countIn] at ih
        exact ih hl hkl

lemma setAdd_nodup (x : Str) (l : List Str) (h : l.Nodup) : (setAdd x l).Nodup := by
  unfold setAdd
  split
  · exact h
  · rename_i hc
    have : x ∉ l := by simpa using hc
    simpa [List.nodup_append, this] using h

lemma setAdd_length (x : Str) (l : List Str) : (setAdd x l).length ≤ l.length + 1 := by
  unfold setAdd
  split
  · omega
  · simp

lemma setAdd_mem (x y : Str) (l : List Str) (h : y ∈ l) : y ∈ setAdd x l := by
  unfold setAdd
  split
  · exact h
  · simp [h]

/-- Along `paramLoop`, the keyword set stays duplicate-free and never
grows: each processed parameter token is removed before the (at most one)
base name is added. -/
lemma paramLoop_nodup_len :
    ∀ (plist : List Str) (acc accF : List Str × List (Str × Str)),
      paramLoop plist acc = .ok accF →
      acc.1.Nodup → plist.Nodup → (∀ p ∈ plist, p ∈ acc.1) →
      accF.1.Nodup ∧ accF.1.length ≤ acc.1.length := by
  intro plist
  induction plist with
  | nil =>
    intro acc accF h hnd _ _
    simp only [paramLoop] at h
    cases h
    exact ⟨hnd, Nat.le_refl _⟩
  | cons p rest ih =>
    intro acc accF h hnd hpl hmem
    simp only [paramLoop] at h
    cases hsp : splitOn '#' p with
    | nil => simp only [hsp] at h; cases h
    | cons k tail =>
      cases tail with
      | nil => simp only [hsp] at h; cases h
      | cons v tail2 =>
        cases tail2 with
        | nil =>
          simp only [hsp] at h
          rcases List.nodup_cons.mp hpl with ⟨hpr, hrest⟩
          have hpin : p ∈ acc.1 := hmem p (List.mem_cons_self p rest)
          have hnd' : (setAdd (k ++ ['#']) (acc.1.erase p)).Nodup :=
            setAdd_nodup _ _ (hnd.erase p)
          have hmem' : ∀ q ∈ rest, q ∈ setAdd (k ++ ['#']) (acc.1.erase p) := by
            intro q hq
            refine setAdd_mem _ _ _ ?_
            refine (List.mem_erase_of_ne ?_).mpr (hmem q (List.mem_cons_of_mem p hq))
            intro hqp
            rw [hqp] at hq
            exact hpr hq
          have := ih _ _ h hnd' hrest hmem'
          refine ⟨this.1, le_trans this.2 ?_⟩
          dsimp only
          have h1 := setAdd_length (k ++ ['#']) (acc.1.erase p)
          have h2 : (acc.1.erase p).length = acc.1.length - 1 :=
            List.length_erase_of_mem hpin
          have h3 : 1 ≤ acc.1.length := List.length_pos.mpr
            (List.ne_nil_of_mem hpin)
          omega
        | cons w tail3 => simp only [hsp] at h; cases h

/-- The loop invariant behind the amended C4: every `offset` assignment
is accompanied by a `kwdcount` increment, and `kwdcount` counts distinct
requested keywords recorded in `edge_list`. -/
lemma travLoop_offset_inv (g : Graph) (env : Option Str → List Str)
    (kwdset : List Str) (pmode : Bool) (hnd : kwdset.Nodup) :
    ∀ fuel st st', travLoop g env kwdset pmode fuel st = .ok st' →
      st.offsetWrites ≤ st.kwdcount →
      st.kwdcount ≤ countIn kwdset st.edgeList →
      st'.offsetWrites ≤ st'.kwdcount ∧
        st'.kwdcount ≤ countIn kwdset st'.edgeList := by
  intro fuel
  induction fuel with
  | zero =>
    intro st st' h h1 h2
    simp only [travLoop] at h
    cases h
    exact ⟨h1, h2⟩
  | succ n ih =>
    intro st st' h h1 h2
    simp only [travLoop] at h
    cases hin : st.innode with
    | none =>
      simp only [hin] at h
      cases h
      exact ⟨h1, h2⟩
    | some nd =>
      simp only [hin] at h
      by_cases hc : st.count ≤ g.nodes.length
      · rw [if_pos hc] at h
        cases hsel : select_edge nd kwdset pmode st.kwdcount with
        | error e => simp only [hsel] at h; cases h
        | ok edge =>
          simp only [hsel] at h
          by_cases hm : (kwdset.contains edge.kwd && !(st.edgeList.contains edge.kwd)
              && !(edge.kwd == ("default").data)) = true
          · rw [hm] at h
            simp only [if_true] at h
            refine ih _ _ h ?_ ?_
            · dsimp only
              split <;> omega
            · dsimp only
              have hm2 := hm
              simp only [Bool.and_eq_true] at hm2
              obtain ⟨⟨hk1, hk2⟩, _⟩ := hm2
              have hkin : edge.kwd ∈ kwdset := by simpa using hk1
              have hkel : edge.kwd ∉ st.edgeList := by simpa using hk2
              have := countIn_append_new kwdset st.edgeList edge.kwd hnd hkin hkel
              omega
          · have hm' : (kwdset.contains edge.kwd && !(st.edgeList.contains edge.kwd)
                && !(edge.kwd == ("default").data)) = false := by
              simpa using hm
            rw [hm'] at h
            simp only [Bool.false_eq_true, if_false, Bool.false_and] at h
            refine ih _ _ h h1 ?_
            dsimp only
            exact le_trans h2 (countIn_mono kwdset st.edgeList [edge.kwd])
      · rw [if_neg hc] at h
        cases h
        exact ⟨h1, h2⟩

/-- C4 amended: `offset` is reassigned on each newly matched requested
keyword (with a destination), so the number of assignments is bounded by
`kwdcount`, which itself never exceeds the number of distinct top-level
tokens of the input — not by one, and the first assignment happens at the
first match rather than when every keyword has been matched. -/
theorem C4_offset_write_bound (g : Graph) (env : Option Str → List Str)
    (obsmode : Str) (pmode : Bool) (st : TravState)
    (h : traverseState g env obsmode pmode = .ok st) :
    st.offsetWrites ≤ st.kwdcount ∧
      st.kwdcount ≤ ((splitOn ',' obsmode).dedup).length := by
  simp only [traverseState] at h
  cases hps : paramSplit ((splitOn ',' obsmode).dedup) with
  | error e => simp only [hps] at h; cases h
  | ok kp =>
    obtain ⟨kw, ps⟩ := kp
    simp only [hps] at h
    cases hlk : lookupNode g g.top with
    | none => simp only [hlk] at h; cases h
    | some start =>
      simp only [hlk] at h
      have hbase : kw.Nodup ∧ kw.length ≤ ((splitOn ',' obsmode).dedup).length := by
        have hdd : ((splitOn ',' obsmode).dedup).Nodup := List.nodup_dedup _
        exact paramLoop_nodup_len _ _ _ hps hdd
          (hdd.filter _) (fun p hp => List.mem_of_mem_filter hp)
      have := travLoop_offset_inv g env kw pmode hbase.1 _ _ _ h
        (Nat.le_refl 0) (Nat.zero_le _)
      refine ⟨this.1, le_trans this.2 ?_⟩
      exact le_trans (countIn_le_length kw st.edgeList) hbase.2

instance : Inhabited TravState := ⟨stHigh⟩

/-- The concrete final loop state of the `acs,wfc1` walk on `gC4`. -/
def stC4 : TravState :=
  (traverseState gC4 envT (("acs,wfc1").data) false).toOption.getD default

/-- C4 witness: the amended bound at the concrete two-keyword walk. -/
theorem C4_witness :
    stC4.offsetWrites ≤ stC4.kwdcount ∧
      stC4.kwdcount ≤ ((splitOn ',' (("acs,wfc1").data)).dedup).length :=
  C4_offset_write_bound gC4 envT (("acs,wfc1").data) false stC4 (by decide)

/-! Structural lemmas about `splitOn`. -/

lemma splitOn_ne_nil (sep : Char) (s : Str) : splitOn sep s ≠ [] := by
  induction s with
  | nil => simp [splitOn]
  | cons c cs ih =>
    simp only [splitOn]
    split
    · simp
    · cases h : splitOn sep cs with
      | nil => exact absurd h ih
      | cons t ts => simp

lemma splitOn_no_sep (sep : Char) (s : Str) (h : s.contains sep = false) :
    splitOn sep s = [s] := by
  induction s with
  | nil => rfl
  | cons c cs ih =>
    have hmem : sep ∉ c :: cs := by simpa using h
    have hc : ¬(c = sep) := fun hh => hmem (by rw [hh]; exact List.mem_cons_self _ _)
    have hcs : cs.contains sep = false := by
      have : sep ∉ cs := fun hm => hmem (List.mem_cons_of_mem c hm)
      simpa using this
    simp only [splitOn, if_neg hc, ih hcs]

lemma splitOn_append (sep : Char) (a b : Str) :
    splitOn sep (a ++ sep :: b) = splitOn sep a ++ splitOn sep b := by
  induction a with
  | nil => simp [splitOn]
  | cons c a' ih =>
    by_cases hc : c = sep
    · subst hc
      simp [splitOn, ih]
    · cases h : splitOn sep a' with
      | nil => exact absurd h (splitOn_ne_nil sep a')
      | cons t ts =>
        simp only [List.cons_append, splitOn, if_neg hc, List.append_eq]
        rw [ih, h]
        rfl

lemma splitOn_singleton_inv (sep : Char) (s v : Str) (h : splitOn sep s = [v]) :
    s = v ∧ v.contains sep = false := by
  induction s generalizing v with
  | nil =>
    simp only [splitOn] at h
    injection h with h1 _
    subst h1
    exact ⟨rfl, rfl⟩
  | cons c cs ih =>
    simp only [splitOn] at h
    by_cases hc : c = sep
    · rw [if_pos hc] at h
      injection h with h1 h2
      exact absurd h2 (splitOn_ne_nil sep cs)
    · rw [if_neg hc] at h
      cases hcs : splitOn sep cs with
      | nil => exact absurd hcs (splitOn_ne_nil sep cs)
      | cons t ts =>
        rw [hcs] at h
        injection h with h1 h2
        subst h2
        obtain ⟨he, hco⟩ := ih t hcs
        subst he
        subst h1
        refine ⟨rfl, ?_⟩
        have hnm : sep ∉ c :: cs := by
          intro hm
          rcases List.mem_cons.mp hm with hmm | hmm
          · exact hc hmm.symm
          · exact absurd hmm (by simpa using hco)
        simpa using hnm

lemma splitOn_pair_of (sep : Char) (s k v : Str) (h : splitOn sep s = [k, v]) :
    s = k ++ sep :: v ∧ k.contains sep = false ∧ v.contains sep = false := by
  induction s generalizing k with
  | nil =>
    simp only [splitOn] at h
    injection h with h1 h2
    exact List.noConfusion h2
  | cons c cs ih =>
    simp only [splitOn] at h
    by_cases hc : c = sep
    · rw [if_pos hc] at h
      subst hc
      injection h with h1 h2
      subst h1
      obtain ⟨he, hco⟩ := splitOn_singleton_inv c cs v h2
      subst he
      exact ⟨rfl, rfl, hco⟩
    · rw [if_neg hc] at h
      cases hcs : splitOn sep cs with
      | nil => exact absurd hcs (splitOn_ne_nil sep cs)
      | cons t ts =>
        rw [hcs] at h
        injection h with h1 h2
        subst h2
        obtain ⟨he, hk, hv⟩ := ih t hcs
        subst he
        subst h1
        refine ⟨rfl, ?_, hv⟩
        have hnm : sep ∉ c :: t := by
          intro hm
          rcases List.mem_cons.mp hm with hmm | hmm
          · exact hc hmm.symm
          · exact absurd hmm (by simpa using hk)
        simpa using hnm

/-! Small dictionary and set lemmas. -/

lemma setAdd_self_mem (x : Str) (l : List Str) : x ∈ setAdd x l := by
  unfold setAdd
  split
  · rename_i h
    simpa using h
  · simp

lemma setAdd_not_mem (x y : Str) (l : List Str) (h1 : x ∉ l) (h2 : x ≠ y) :
    x ∉ setAdd y l := by
  unfold setAdd
  split
  · exact h1
  · simp [h1, h2]

lemma dictInsert_lookup_self (k : Str) (v : α) (d : List (Str × α)) :
    lookupDict (dictInsert k v d) k = some v := by
  induction d with
  | nil => simp [dictInsert, lookupDict]
  | cons kv rest ih =>
    simp only [dictInsert]
    split
    · simp [lookupDict, List.find?]
    · rename_i hne
      have hb : (kv.1 == k) = false := beq_eq_false_iff_ne.mpr hne
      simp only [lookupDict, List.find?, hb] at ih ⊢
      exact ih

lemma dictInsert_lookup_ne (k k2 : Str) (v : α) (d : List (Str × α)) (h : k2 ≠ k) :
    lookupDict (dictInsert k v d) k2 = lookupDict d k2 := by
  have hb : (k == k2) = false := beq_eq_false_iff_ne.mpr (fun hh => h hh.symm)
  induction d with
  | nil => simp [dictInsert, lookupDict, List.find?, hb]
  | cons kv rest ih =>
    simp only [dictInsert]
    split
    · rename_i hk
      simp only [lookupDict, List.find?, hb]
      have h2 : (kv.1 == k2) = false := by rw [hk]; exact hb
      rw [h2]
    · simp only [lookupDict, List.find?] at ih ⊢
      cases hkv : (kv.1 == k2) with
      | true => rfl
      | false => exact ih

/-! Lemmas about the parameter-processing loop. -/

lemma paramLoop_append (l1 l2 : List Str) (acc : List Str × List (Str × Str)) :
    paramLoop (l1 ++ l2) acc =
      match paramLoop l1 acc with
      | .error e => .error e
      | .ok acc1 => paramLoop l2 acc1 := by
  induction l1 generalizing acc with
  | nil => simp [paramLoop]
  | cons p rest ih =>
    simp only [List.cons_append, paramLoop]
    cases hsp : splitOn '#' p with
    | nil => rfl
    | cons k tail =>
      cases tail with
      | nil => rfl
      | cons v tail2 =>
        cases tail2 with
        | nil => exact ih _
        | cons w tail3 => rfl

lemma paramLoop_isOk (rest : List Str)
    (h : ∀ p ∈ rest, (splitOn '#' p).length = 2) :
    ∀ acc, ∃ accF, paramLoop rest acc = .ok accF := by
  induction rest with
  | nil => intro acc; exact ⟨acc, rfl⟩
  | cons p tail ih =>
    intro acc
    have hp := h p (List.mem_cons_self p tail)
    cases hsp : splitOn '#' p with
    | nil => rw [hsp] at hp; simp at hp
    | cons k t2 =>
      cases t2 with
      | nil => rw [hsp] at hp; simp at hp
      | cons v t3 =>
        cases t3 with
        | nil =>
          simp only [paramLoop, hsp]
          exact ih (fun q hq => h q (List.mem_cons_of_mem p hq)) _
        | cons w t4 => rw [hsp] at hp; simp at hp

lemma paramLoop_mem_preserve (x : Str) :
    ∀ (rest : List Str) (acc accF : List Str × List (Str × Str)),
      paramLoop rest acc = .ok accF → x ∈ acc.1 → x ∉ rest → x ∈ accF.1 := by
  intro rest
  induction rest with
  | nil =>
    intro acc accF h hx _
    simp only [paramLoop] at h
    cases h
    exact hx
  | cons p tail ih =>
    intro acc accF h hx hnr
    simp only [paramLoop] at h
    cases hsp : splitOn '#' p with
    | nil => simp only [hsp] at h; cases h
    | cons k t2 =>
      cases t2 with
      | nil => simp only [hsp] at h; cases h
      | cons v t3 =>
        cases t3 with
        | nil =>
          simp only [hsp] at h
          refine ih _ _ h ?_ (fun hm => hnr (List.mem_cons_of_mem p hm))
          refine setAdd_mem _ _ _ ?_
          exact (List.mem_erase_of_ne
            (fun hxp => hnr (by rw [hxp]; exact List.mem_cons_self p tail))).mpr hx
        | cons w t4 => simp only [hsp] at h; cases h

lemma paramLoop_not_mem_preserve (x : Str) :
    ∀ (rest : List Str) (acc accF : List Str × List (Str × Str)),
      paramLoop rest acc = .ok accF → x ∉ acc.1 →
      (∀ p ∈ rest, ∀ k v, splitOn '#' p = [k, v] → x ≠ k ++ ['#']) →
      x ∉ accF.1 := by
  intro rest
  induction rest with
  | nil =>
    intro acc accF h hx _
    simp only [paramLoop] at h
    cases h
    exact hx
  | cons p tail ih =>
    intro acc accF h hx hb
    simp only [paramLoop] at h
    cases hsp : splitOn '#' p with
    | nil => simp only [hsp] at h; cases h
    | cons k t2 =>
      cases t2 with
      | nil => simp only [hsp] at h; cases h
      | cons v t3 =>
        cases t3 with
        | nil =>
          simp only [hsp] at h
          refine ih _ _ h ?_ (fun q hq => hb q (List.mem_cons_of_mem p hq))
          refine setAdd_not_mem _ _ _ (fun hm => hx (List.mem_of_mem_erase hm)) ?_
          exact hb p (List.mem_cons_self p tail) k v hsp
        | cons w t4 => simp only [hsp] at h; cases h

lemma paramLoop_lookup_preserve (key : Str) (v0 : Str) :
    ∀ (rest : List Str) (acc accF : List Str × List (Str × Str)),
      paramLoop rest acc = .ok accF → lookupDict acc.2 key = some v0 →
      (∀ p ∈ rest, ∀ k v, splitOn '#' p = [k, v] →
        (k ++ ['#']).map Char.toUpper ≠ key) →
      lookupDict accF.2 key = some v0 := by
  intro rest
  induction rest with
  | nil =>
    intro acc accF h hx _
    simp only [paramLoop] at h
    cases h
    exact hx
  | cons p tail ih =>
    intro acc accF h hx hb
    simp only [paramLoop] at h
    cases hsp : splitOn '#' p with
    | nil => simp only [hsp] at h; cases h
    | cons k t2 =>
      cases t2 with
      | nil => simp only [hsp] at h; cases h
      | cons v t3 =>
        cases t3 with
        | nil =>
          simp only [hsp] at h
          refine ih _ _ h ?_ (fun q hq => hb q (List.mem_cons_of_mem p hq))
          dsimp only
          rw [dictInsert_lookup_ne _ _ _ _
            (fun hh => hb p (List.mem_cons_self p tail) k v hsp hh.symm)]
          exact hx
        | cons w t4 => simp only [hsp] at h; cases h

/-- The `params` key a parameterized token contributes: the uppercased
base name with a trailing `'#'`. -/
def hashKey (p : Str) : Str :=
  match splitOn '#' p with
  | [k, _] => (k ++ ['#']).map Char.toUpper
  | _ => []

/-- C6 amended: for each comma-separated token with exactly one `'#'`,
nonempty value, and pairwise distinct uppercased base names, the keyword
preprocessing of `traverse` (lines 189-196, `paramSplit`) removes the raw
token from the keyword set, records the value under the uppercased base
name with trailing `'#'` in the params given to the `Path`, and puts the
base name with trailing `'#'` into the keyword set. -/
theorem C6_param_preprocessing (kw0 : List Str) (hnd : kw0.Nodup)
    (hone : ∀ t ∈ kw0, t.contains '#' = true →
      (splitOn '#' t).length = 2 ∧ ((splitOn '#' t).getLastD []) ≠ [] ∧
        ((splitOn '#' t).getLastD []).contains '#' = false)
    (hdist : ((kw0.filter (fun t => t.contains '#')).map hashKey).Nodup) :
    ∃ kw ps, paramSplit kw0 = .ok (kw, ps) ∧
      ∀ t ∈ kw0, ∀ k v, splitOn '#' t = [k, v] → v ≠ [] →
        v.contains '#' = false →
        t ∉ kw ∧ (k ++ ['#']) ∈ kw ∧
          lookupDict ps ((k ++ ['#']).map Char.toUpper) = some v := by
  set plist := kw0.filter (fun t => t.contains '#') with hpl
  have hsplits : ∀ p ∈ plist, (splitOn '#' p).length = 2 := by
    intro p hp
    rw [hpl] at hp
    obtain ⟨hpk, hpc⟩ := List.mem_filter.mp hp
    exact (hone p hpk hpc).1
  obtain ⟨accF, hok⟩ := paramLoop_isOk plist hsplits (kw0, [])
  have hmemsplit : ∀ p ∈ plist, ∃ k2 v2, splitOn '#' p = [k2, v2] ∧ v2 ≠ [] ∧
      v2.contains '#' = false := by
    intro p hp
    rw [hpl] at hp
    obtain ⟨hpk, hpc⟩ := List.mem_filter.mp hp
    obtain ⟨hl2, hvl, hvc2⟩ := hone p hpk hpc
    cases hsp2 : splitOn '#' p with
    | nil => rw [hsp2] at hl2; simp at hl2
    | cons k2 t2 =>
      cases t2 with
      | nil => rw [hsp2] at hl2; simp at hl2
      | cons v2 t3 =>
        cases t3 with
        | nil =>
          rw [hsp2] at hvl hvc2
          exact ⟨k2, v2, rfl, by simpa using hvl, by simpa using hvc2⟩
        | cons w t4 => rw [hsp2] at hl2; simp at hl2
  have hplast : ∀ p ∈ plist, p.getLast? ≠ some '#' := by
    intro p hp
    obtain ⟨k2, v2, hsp2, hv2, hvc2⟩ := hmemsplit p hp
    obtain ⟨he, _, _⟩ := splitOn_pair_of '#' p k2 v2 hsp2
    rw [he, List.getLast?_append_of_ne_nil k2 (by simp : ('#' :: v2 : Str) ≠ []),
      show ('#' :: v2 : Str) = ['#'] ++ v2 from rfl,
      List.getLast?_append_of_ne_nil ['#'] hv2]
    intro hcc
    exact absurd (List.mem_of_mem_getLast? (Option.mem_def.mpr hcc))
      (by simpa using hvc2)
  refine ⟨accF.1, accF.2, ?_, ?_⟩
  · unfold paramSplit
    rw [← hpl, hok]
  · intro t ht k v hsp hvne hvc
    have htc : t.contains '#' = true := by
      obtain ⟨he, _, _⟩ := splitOn_pair_of '#' t k v hsp
      subst he
      simp
    have htp : t ∈ plist := by
      rw [hpl]
      exact List.mem_filter.mpr ⟨ht, htc⟩
    obtain ⟨l1, l2, hdecomp⟩ := List.append_of_mem htp
    have hplnd : plist.Nodup := by
      rw [hpl]
      exact hnd.filter _
    have hbase_last : ((k ++ ['#'] : Str)).getLast? = some '#' := by simp
    rw [hdecomp, paramLoop_append] at hok
    cases h1 : paramLoop l1 (kw0, []) with
    | error e => simp only [h1] at hok; cases hok
    | ok acc1 =>
      simp only [h1] at hok
      simp only [paramLoop, hsp] at hok
      have hl1nd : l1.Nodup := by
        rw [hdecomp] at hplnd
        exact hplnd.of_append_left
      have hl1sub : ∀ p ∈ l1, p ∈ (kw0, ([] : List (Str × Str))).1 := by
        intro p hp
        have hp2 : p ∈ plist := by
          rw [hdecomp]
          exact List.mem_append_left _ hp
        rw [hpl] at hp2
        exact List.mem_of_mem_filter hp2
      have hacc1 := paramLoop_nodup_len l1 (kw0, []) acc1 h1 hnd hl1nd hl1sub
      have ht1 : t ∈ acc1.1 := by
        refine paramLoop_mem_preserve t l1 (kw0, []) acc1 h1 ht ?_
        intro hmem
        rw [hdecomp] at hplnd
        exact (List.disjoint_of_nodup_append hplnd) hmem (List.mem_cons_self _ _)
      refine ⟨?_, ?_, ?_⟩
      · refine paramLoop_not_mem_preserve t l2 _ accF hok ?_ ?_
        · dsimp only
          refine setAdd_not_mem _ _ _ hacc1.1.not_mem_erase ?_
          intro he
          exact (hplast t htp) (by rw [he]; exact hbase_last)
        · intro p hp k2 v2 hsp2 he
          exact (hplast t htp) (by rw [he]; simp)
      · refine paramLoop_mem_preserve (k ++ ['#']) l2 _ accF hok ?_ ?_
        · dsimp only
          exact setAdd_self_mem _ _
        · intro hmem
          have hp2 : (k ++ ['#'] : Str) ∈ plist := by
            rw [hdecomp]
            exact List.mem_append_right _ (List.mem_cons_of_mem _ hmem)
          exact (hplast _ hp2) hbase_last
      · refine paramLoop_lookup_preserve _ v l2 _ accF hok ?_ ?_
        · dsimp only
          exact dictInsert_lookup_self _ _ _
        · intro p hp k2 v2 hsp2 heq
          have hkp : hashKey p = hashKey t := by
            simp only [hashKey, hsp2, hsp]
            exact heq
          rw [hdecomp] at hdist
          have hnd2 : (List.map hashKey (t :: l2)).Nodup := by
            rw [List.map_append] at hdist
            exact hdist.of_append_right
          rw [List.map_cons] at hnd2
          rcases List.nodup_cons.mp hnd2 with ⟨hnotin, _⟩
          exact hnotin (by rw [← hkp]; exact List.mem_map_of_mem hashKey hp)

/-- C6 witness: the single parameterized token `mjd#55000` beside `acs`. -/
theorem C6_param_witness :
    ∃ kw ps, paramSplit [("acs").data, ("mjd#55000").data] = .ok (kw, ps) ∧
      ∀ t ∈ [("acs").data, ("mjd#55000").data], ∀ k v, splitOn '#' t = [k, v] →
        v ≠ [] → v.contains '#' = false →
        t ∉ kw ∧ (k ++ ['#']) ∈ kw ∧
          lookupDict ps ((k ++ ['#']).map Char.toUpper) = some v :=
  C6_param_preprocessing [("acs").data, ("mjd#55000").data]
    (by decide) (by decide) (by decide)

/-! Lemmas about `replaceAll`. -/

lemma replaceAllGo_fuel (pat repl : Str) :
    ∀ f g s, s.length ≤ f → s.length ≤ g →
      replaceAllGo pat repl f s = replaceAllGo pat repl g s := by
  intro f
  induction f with
  | zero =>
    intro g s hf hg
    cases s with
    | nil => cases g <;> rfl
    | cons c cs => simp at hf
  | succ n ih =>
    intro g s hf hg
    cases s with
    | nil => cases g <;> rfl
    | cons c cs =>
      cases g with
      | zero => simp at hg
      | succ m =>
        simp only [replaceAllGo]
        split
        · have hd : (cs.drop (pat.length - 1)).length ≤ cs.length := by
            simp [List.length_drop]
          have h1 : (cs.drop (pat.length - 1)).length ≤ n := by
            simp only [List.length_cons] at hf
            omega
          have h2 : (cs.drop (pat.length - 1)).length ≤ m := by
            simp only [List.length_cons] at hg
            omega
          rw [ih _ _ h1 h2]
        · have h1 : cs.length ≤ n := by
            simp only [List.length_cons] at hf
            omega
          have h2 : cs.length ≤ m := by
            simp only [List.length_cons] at hg
            omega
          rw [ih _ _ h1 h2]

lemma replaceAll_cons_pos (pat repl : Str) (c : Char) (cs : Str)
    (hne : pat ≠ []) (hpre : pat.isPrefixOf (c :: cs) = true) :
    replaceAll pat repl (c :: cs) =
      repl ++ replaceAll pat repl (cs.drop (pat.length - 1)) := by
  simp only [replaceAll, List.length_cons, replaceAllGo, hne, hpre, and_true,
    ne_eq, not_false_iff, if_true]
  rw [replaceAllGo_fuel pat repl cs.length (cs.drop (pat.length - 1)).length _
    (by simp [List.length_drop]) (Nat.le_refl _)]

lemma replaceAll_cons_neg (pat repl : Str) (c : Char) (cs : Str)
    (h : ¬(pat ≠ [] ∧ pat.isPrefixOf (c :: cs) = true)) :
    replaceAll pat repl (c :: cs) = c :: replaceAll pat repl cs := by
  simp only [replaceAll, List.length_cons, replaceAllGo]
  rw [if_neg h]

lemma prefix_subset (pat s : Str) (h : pat.isPrefixOf s = true) :
    ∀ a ∈ pat, a ∈ s := by
  intro a ha
  exact (List.isPrefixOf_iff_prefix.mp h).sublist.subset ha

lemma replaceAll_of_not_contains (pat repl s : Str) (c : Char)
    (hc : c ∈ pat) (hs : c ∉ s) : replaceAll pat repl s = s := by
  induction s with
  | nil => rfl
  | cons d ds ih =>
    rw [replaceAll_cons_neg]
    · rw [ih (fun hm => hs (List.mem_cons_of_mem d hm))]
    · rintro ⟨-, hpre⟩
      exact hs (prefix_subset pat (d :: ds) hpre c hc)

lemma not_prefix_comma_head (j : Str) (hj : ',' ∉ j) (hne : j ≠ []) (xs : Str) :
    ¬((j ++ [',']).isPrefixOf (',' :: xs) = true) := by
  intro hpre
  cases j with
  | nil => exact hne rfl
  | cons j0 j' =>
    obtain ⟨w, hw⟩ := List.isPrefixOf_iff_prefix.mp hpre
    simp only [List.cons_append, List.cons.injEq] at hw
    exact hj (by rw [hw.1]; exact List.mem_cons_self _ _)

lemma replaceAll_comma_head (j repl : Str) (hj : ',' ∉ j) (hne : j ≠ [])
    (xs : Str) :
    replaceAll (j ++ [',']) repl (',' :: xs) =
      ',' :: replaceAll (j ++ [',']) repl xs := by
  rw [replaceAll_cons_neg]
  rintro ⟨-, hpre⟩
  exact not_prefix_comma_head j hj hne xs hpre

lemma walkTokenComma (repl : Str) (t u : Str) (ht : ',' ∉ t) :
    replaceAll [',', ','] repl (t ++ u) = t ++ replaceAll [',', ','] repl u := by
  induction t with
  | nil => rfl
  | cons c t' ih =>
    have hc : c ≠ ',' := fun hcc => ht (by rw [hcc]; exact List.mem_cons_self _ _)
    rw [List.cons_append, replaceAll_cons_neg]
    · rw [ih (fun hm => ht (List.mem_cons_of_mem c hm))]
      rfl
    · rintro ⟨-, hpre⟩
      obtain ⟨w, hw⟩ := List.isPrefixOf_iff_prefix.mp hpre
      simp only [List.cons_append, List.cons.injEq] at hw
      exact hc hw.1.symm

lemma glue_head_ne_comma (ts : List Str) (h : ∀ t ∈ ts, t ≠ [] ∧ ',' ∉ t) :
    ¬((glue ts).head? = some ',') := by
  cases ts with
  | nil => simp [glue]
  | cons t rest =>
    obtain ⟨htne, htc⟩ := h t (List.mem_cons_self t rest)
    cases t with
    | nil => exact absurd rfl htne
    | cons c t' =>
      have hc : c ≠ ',' := fun hcc => htc (by rw [hcc]; exact List.mem_cons_self _ _)
      cases rest with
      | nil => simpa [glue] using hc
      | cons t2 rest2 => simpa [glue] using hc

lemma emptyJunkGlue (repl : Str) (ts : List Str)
    (h : ∀ t ∈ ts, t ≠ [] ∧ ',' ∉ t) :
    replaceAll [',', ','] repl (glue ts) = glue ts := by
  induction ts with
  | nil => rfl
  | cons t rest ih =>
    obtain ⟨htne, htc⟩ := h t (List.mem_cons_self t rest)
    cases rest with
    | nil =>
      show replaceAll [',', ','] repl (glue [t]) = glue [t]
      simp only [glue]
      exact replaceAll_of_not_contains _ _ t ',' (List.mem_cons_self _ _) htc
    | cons t2 rest2 =>
      show replaceAll [',', ','] repl (t ++ ',' :: glue (t2 :: rest2)) = _
      rw [walkTokenComma repl t _ htc]
      rw [replaceAll_cons_neg]
      · rw [ih (fun q hq => h q (List.mem_cons_of_mem t hq))]
        rfl
      · rintro ⟨-, hpre⟩
        obtain ⟨w, hw⟩ := List.isPrefixOf_iff_prefix.mp hpre
        have hhead : (glue (t2 :: rest2)).head? = some ',' := by
          cases hg : glue (t2 :: rest2) with
          | nil =>
            rw [hg] at hw
            simp at hw
          | cons d ds =>
            rw [hg] at hw
            simp only [List.cons_append, List.cons.injEq] at hw
            rw [← hw.2.1]
            rfl
        exact glue_head_ne_comma (t2 :: rest2)
          (fun q hq => h q (List.mem_cons_of_mem t hq)) hhead

/-- Python replace of `',,'` by `','` leaves any comma-glued list of
nonempty comma-free tokens unchanged. -/
lemma emptyJunk_main (repl : Str) (ts : List Str)
    (h : ∀ t ∈ ts, t ≠ [] ∧ ',' ∉ t) :
    replaceAll [',', ','] repl (',' :: glue ts) = ',' :: glue ts := by
  rw [replaceAll_cons_neg]
  · rw [emptyJunkGlue repl ts h]
  · rintro ⟨-, hpre⟩
    obtain ⟨w, hw⟩ := List.isPrefixOf_iff_prefix.mp hpre
    have hhead : (glue ts).head? = some ',' := by
      cases hg : glue ts with
      | nil =>
        rw [hg] at hw
        simp at hw
      | cons d ds =>
        rw [hg] at hw
        simp only [List.cons_append, List.cons.injEq] at hw
        rw [← hw.2.1]
        rfl
    exact glue_head_ne_comma ts h hhead

/-- Stepping the replacement over a whole comma-free token `t` that the
junk word `j` is not a suffix of. -/
lemma stepToken (j repl : Str) (t u : Str) (hjc : ',' ∉ j) (hjne : j ≠ [])
    (htc : ',' ∉ t) (hsuf : ¬(j <:+ t)) :
    replaceAll (j ++ [',']) repl (t ++ ',' :: u) =
      t ++ replaceAll (j ++ [',']) repl (',' :: u) := by
  induction t with
  | nil => rfl
  | cons c t' ih =>
    have hsuf' : ¬(j <:+ t') := by
      intro hs
      obtain ⟨w, hw⟩ := hs
      exact hsuf ⟨c :: w, by rw [List.cons_append, hw]⟩
    have htc' : ',' ∉ t' := fun hm => htc (List.mem_cons_of_mem c hm)
    rw [List.cons_append, replaceAll_cons_neg]
    · rw [ih htc' hsuf']
      rfl
    · rintro ⟨-, hpre⟩
      have hp1 : (j ++ [',']) <+: ((c :: t') ++ ',' :: u) := by
        have := List.isPrefixOf_iff_prefix.mp hpre
        simpa using this
      have hp2 : (c :: t') <+: ((c :: t') ++ ',' :: u) := ⟨',' :: u, rfl⟩
      rcases List.prefix_or_prefix_of_prefix hp1 hp2 with hA | hB
      · exact htc (hA.sublist.subset (by simp))
      · obtain ⟨r, hr⟩ := hB
        obtain ⟨w, hw⟩ := hp1
        rw [← hr, List.append_assoc] at hw
        have hrw : r ++ w = ',' :: u := List.append_cancel_left hw
        cases r with
        | nil =>
          rw [List.append_nil] at hr
          exact htc (by rw [hr]; simp)
        | cons rc r' =>
          have hrc : rc = ',' := by
            have := congrArg List.head? hrw
            simpa using this
          subst hrc
          cases hr2 : r' with
          | nil =>
            rw [hr2] at hr
            have hj : (c :: t') = j := List.append_cancel_right hr
            exact hsuf (by rw [← hj])
          | cons rc2 r'' =>
            rw [hr2] at hr
            have hlen : (c :: t').length + 1 ≤ j.length := by
              have := congrArg List.length hr
              simp at this
              simp only [List.length_cons]
              omega
            have htake := congrArg (List.take ((c :: t').length + 1)) hr
            rw [List.take_append_of_le_length hlen,
              List.take_append_eq_append_take,
              List.take_of_length_le (by simp),
              show (c :: t').length + 1 - (c :: t').length = 1 by omega] at htake
            have hcomma : ',' ∈ j.take ((c :: t').length + 1) := by
              rw [← htake]
              simp
            exact hjc (List.take_subset _ _ hcomma)

/-- Replacing at a token equal to the junk word consumes the token and
its trailing separator. -/
lemma stepTokenEq (j repl u : Str) (hjne : j ≠ []) :
    replaceAll (j ++ [',']) repl (j ++ ',' :: u) =
      repl ++ replaceAll (j ++ [',']) repl u := by
  cases j with
  | nil => exact absurd rfl hjne
  | cons j0 j' =>
    have hpre : ((j0 :: j') ++ [',']).isPrefixOf (j0 :: (j' ++ ',' :: u)) = true := by
      refine List.isPrefixOf_iff_prefix.mpr ⟨u, ?_⟩
      simp
    show replaceAll ((j0 :: j') ++ [',']) repl (j0 :: (j' ++ ',' :: u)) =
      repl ++ replaceAll ((j0 :: j') ++ [',']) repl u
    rw [replaceAll_cons_pos ((j0 :: j') ++ [',']) repl j0 (j' ++ ',' :: u)
      (by simp) hpre]
    congr 1
    rw [show ((j0 :: j') ++ [',']).length - 1 = j'.length + 1 by simp,
      show j' ++ ',' :: u = (j' ++ [',']) ++ u by simp,
      show j'.length + 1 = (j' ++ [',']).length by simp]
    rw [List.drop_left]

lemma filter_last_survives (j : Str) (ts : List Str) (hne : ts ≠ [])
    (hlast : ts.getLast? ≠ some j) :
    ts.filter (fun t => !(t == j)) ≠ [] := by
  have hx := List.getLast?_eq_getLast ts hne
  set x := ts.getLast hne with hxd
  have hdecomp := List.dropLast_append_getLast hne
  intro hcontra
  have hxj : x ≠ j := fun hh => hlast (by rw [hx, hh])
  have hxmem : x ∈ ts.filter (fun t => !(t == j)) := by
    refine List.mem_filter.mpr ⟨?_, by simp [hxj]⟩
    rw [← hdecomp]
    simp
  rw [hcontra] at hxmem
  cases hxmem

lemma getLast?_filter_keep (p : Str → Bool) (ts : List Str) (hne : ts ≠ [])
    (hp : p (ts.getLast hne) = true) :
    (ts.filter p).getLast? = ts.getLast? := by
  have hdecomp := List.dropLast_append_getLast hne
  conv_lhs => rw [← hdecomp]
  conv_rhs => rw [← hdecomp]
  rw [List.filter_append]
  have : List.filter p [ts.getLast hne] = [ts.getLast hne] := by simp [hp]
  rw [this]
  rw [List.getLast?_concat, List.getLast?_concat]

/-- Removing one nonempty junk word from a glued token list removes
exactly the tokens equal to it. -/
lemma stripJGlue (j : Str) (hjc : ',' ∉ j) (hjne : j ≠ []) :
    ∀ ts : List Str, (∀ t ∈ ts, ',' ∉ t) → (∀ t ∈ ts, j <:+ t → t = j) →
      ts ≠ [] → ts.getLast? ≠ some j →
      replaceAll (j ++ [',']) [] (glue ts) =
        glue (ts.filter (fun t => !(t == j))) := by
  intro ts
  induction ts with
  | nil => intro _ _ hne _; exact absurd rfl hne
  | cons t rest ih =>
    intro hcf hsuf _ hlast
    cases rest with
    | nil =>
      have htj : t ≠ j := by
        intro hh
        exact hlast (by rw [hh]; rfl)
      show replaceAll (j ++ [',']) [] (glue [t]) = _
      simp only [glue]
      rw [replaceAll_of_not_contains _ _ t ',' (by simp) (hcf t (by simp))]
      have hbt : (t == j) = false := beq_eq_false_iff_ne.mpr htj
      simp [List.filter, hbt, glue]
    | cons t2 rest2 =>
      have hrest_last : (t2 :: rest2).getLast? ≠ some j := by
        intro hh
        refine hlast ?_
        rw [show (t :: t2 :: rest2).getLast? = (t2 :: rest2).getLast? by
          simp [List.getLast?]]
        exact hh
      have hrest_cf : ∀ q ∈ t2 :: rest2, ',' ∉ q :=
        fun q hq => hcf q (List.mem_cons_of_mem t hq)
      have hrest_suf : ∀ q ∈ t2 :: rest2, j <:+ q → q = j :=
        fun q hq => hsuf q (List.mem_cons_of_mem t hq)
      have hglue : glue (t :: t2 :: rest2) = t ++ ',' :: glue (t2 :: rest2) := rfl
      by_cases htj : t = j
      · subst htj
        rw [hglue, stepTokenEq t [] _ hjne,
          ih hrest_cf hrest_suf (by simp) hrest_last]
        simp [List.filter]
      · rw [hglue, stepToken j [] t _ hjc hjne (hcf t (by simp))
            (fun hs => htj (hsuf t (by simp) hs)),
          replaceAll_comma_head j [] hjc hjne _,
          ih hrest_cf hrest_suf (by simp) hrest_last]
        have hfne : (t2 :: rest2).filter (fun q => !(q == j)) ≠ [] :=
          filter_last_survives j (t2 :: rest2) (by simp) hrest_last
        have hbt : (t == j) = false := beq_eq_false_iff_ne.mpr htj
        have hfilter : (t :: t2 :: rest2).filter (fun q => !(q == j))
            = t :: (t2 :: rest2).filter (fun q => !(q == j)) := by
          simp [List.filter, hbt]
        rw [hfilter]
        cases hf : (t2 :: rest2).filter (fun q => !(q == j)) with
        | nil => exact absurd hf hfne
        | cons f fs => rfl

lemma contains_cons_eq (a x : Str) (as : List Str) (h : (x == a) = true) :
    (a :: as).contains x = true := by
  show List.elem x (a :: as) = true
  simp [List.elem, h]

lemma contains_cons_ne (a x : Str) (as : List Str) (h : (x == a) = false) :
    (a :: as).contains x = as.contains x := by
  show List.elem x (a :: as) = List.elem x as
  simp [List.elem, h]

/-- The full junk-stripping pass applied to one candidate string. -/
def stripOne (junk : List Str) (m : Str) : Str :=
  junk.foldl (fun m j => replaceAll (junkPat j).1 (junkPat j).2 m) m

lemma stripOne_cons (j : Str) (rest : List Str) (m : Str) :
    stripOne (j :: rest) m =
      stripOne rest (replaceAll (junkPat j).1 (junkPat j).2 m) := rfl

lemma stripJunk_map (junk : List Str) (modes : List Str) :
    stripJunk junk modes = modes.map (stripOne junk) := by
  induction junk generalizing modes with
  | nil =>
    have hfn : stripOne ([] : List Str) = @id Str := funext (fun m => rfl)
    show stripJunk [] modes = modes.map (stripOne [])
    rw [hfn, List.map_id]
    rfl
  | cons j rest ih =>
    have h1 : stripJunk (j :: rest) modes =
        stripJunk rest (modes.map
          (fun m => replaceAll (junkPat j).1 (junkPat j).2 m)) := rfl
    rw [h1, ih, List.map_map]
    rfl

lemma glue_cons_of_ne_nil (a : Str) (ts : List Str) (h : ts ≠ []) :
    glue (a :: ts) = a ++ ',' :: glue ts := by
  cases ts with
  | nil => exact absurd rfl h
  | cons b rest => rfl

lemma splitOn_glue (ts : List Str) (hne : ts ≠ []) (hcf : ∀ t ∈ ts, ',' ∉ t) :
    splitOn ',' (glue ts) = ts := by
  induction ts with
  | nil => exact absurd rfl hne
  | cons t rest ih =>
    cases rest with
    | nil =>
      show splitOn ',' (glue [t]) = [t]
      simp only [glue]
      exact splitOn_no_sep ',' t (by simpa using hcf t (by simp))
    | cons t2 rest2 =>
      rw [glue_cons_of_ne_nil t _ (by simp), splitOn_append,
        splitOn_no_sep ',' t (by simpa using hcf t (by simp)),
        ih (by simp) (fun q hq => hcf q (List.mem_cons_of_mem t hq))]
      rfl

/-- One pass of `process`'s junk stripping on a well-formed glued
candidate: exactly the junk-equal tokens disappear. -/
lemma stripOne_glue (junk : List Str) :
    ∀ ts : List Str, (∀ j ∈ junk, ',' ∉ j) →
      (∀ t ∈ ts, t ≠ [] ∧ ',' ∉ t) →
      (∀ t ∈ ts, ∀ j ∈ junk, j ≠ [] → j <:+ t → t = j) →
      ts ≠ [] → (∀ j ∈ junk, ts.getLast? ≠ some j) →
      stripOne junk (',' :: glue ts) =
        ',' :: glue (ts.filter (fun t => !(junk.contains t))) := by
  induction junk with
  | nil =>
    intro ts _ _ _ _ _
    have : ts.filter (fun t => !(([] : List Str).contains t)) = ts :=
      List.filter_eq_self.mpr (fun a _ => by simp)
    rw [this]
    rfl
  | cons j rest ih =>
    intro ts hjcf htok hsuf hne hlast
    rw [stripOne_cons]
    by_cases hj : j = []
    · subst hj
      have hpat : junkPat [] = ([',', ','], [',']) := rfl
      rw [hpat]
      dsimp only
      rw [emptyJunk_main [','] ts htok]
      rw [ih ts (fun q hq => hjcf q (List.mem_cons_of_mem _ hq)) htok
        (fun t ht j hjm hjne2 => hsuf t ht j (List.mem_cons_of_mem _ hjm) hjne2) hne
        (fun q hq => hlast q (List.mem_cons_of_mem _ hq))]
      congr 2
      refine List.filter_congr ?_
      intro a ha
      have hane : a ≠ [] := (htok a ha).1
      have hb : (a == ([] : Str)) = false := beq_eq_false_iff_ne.mpr hane
      rw [contains_cons_ne ([] : Str) a rest hb]
    · have hpat : junkPat j = (j ++ [','], []) := by simp [junkPat, hj]
      rw [hpat]
      dsimp only
      have hjc : ',' ∉ j := hjcf j (List.mem_cons_self _ _)
      rw [replaceAll_comma_head j [] hjc hj _,
        stripJGlue j hjc hj ts (fun t ht => (htok t ht).2)
          (fun t ht => hsuf t ht j (List.mem_cons_self _ _) hj) hne
          (hlast j (List.mem_cons_self _ _))]
      have hne2 : ts.filter (fun t => !(t == j)) ≠ [] :=
        filter_last_survives j ts hne (hlast j (List.mem_cons_self _ _))
      have hlast2 : (ts.filter (fun t => !(t == j))).getLast? = ts.getLast? := by
        refine getLast?_filter_keep _ ts hne ?_
        have : ts.getLast hne ≠ j := by
          intro hh
          exact hlast j (List.mem_cons_self _ _)
            (by rw [List.getLast?_eq_getLast ts hne, hh])
        simp [beq_eq_false_iff_ne.mpr this]
      rw [ih (ts.filter (fun t => !(t == j)))
        (fun q hq => hjcf q (List.mem_cons_of_mem _ hq))
        (fun t ht => htok t (List.mem_of_mem_filter ht))
        (fun t ht j2 hj2 hj2ne => hsuf t (List.mem_of_mem_filter ht) j2
          (List.mem_cons_of_mem _ hj2) hj2ne)
        hne2
        (fun q hq => by rw [hlast2]; exact hlast q (List.mem_cons_of_mem _ hq))]
      congr 2
      rw [List.filter_filter]
      refine List.filter_congr ?_
      intro a _
      cases h1 : (a == j) with
      | true =>
        rw [contains_cons_eq j a rest h1]
        simp [h1]
      | false =>
        rw [contains_cons_ne j a rest h1]
        cases h2 : rest.contains a <;> simp [h1, h2]

/-- Every junk-stripping pass preserves a leading comma. -/
lemma stripOne_head (junk : List Str) (hjcf : ∀ j ∈ junk, ',' ∉ j) :
    ∀ xs, ∃ ys, stripOne junk (',' :: xs) = ',' :: ys := by
  induction junk with
  | nil => exact fun xs => ⟨xs, rfl⟩
  | cons j rest ih =>
    intro xs
    have hrest : ∀ j2 ∈ rest, ',' ∉ j2 :=
      fun q hq => hjcf q (List.mem_cons_of_mem _ hq)
    by_cases hj : j = []
    · subst hj
      rw [stripOne_cons]
      have hpat : junkPat [] = ([',', ','], [',']) := rfl
      rw [hpat]
      dsimp only
      by_cases hp : (([',', ','] : Str).isPrefixOf (',' :: xs)) = true
      · rw [replaceAll_cons_pos [',', ','] [','] ',' xs (by simp) hp]
        exact ih hrest _
      · rw [replaceAll_cons_neg [',', ','] [','] ',' xs (by rintro ⟨-, hh⟩; exact hp hh)]
        exact ih hrest _
    · rw [stripOne_cons]
      have hpat : junkPat j = (j ++ [','], []) := by simp [junkPat, hj]
      rw [hpat]
      dsimp only
      rw [replaceAll_comma_head j [] (hjcf j (List.mem_cons_self _ _)) hj xs]
      exact ih hrest _

lemma lookupNode_mem (g : Graph) (nm : Str) (nd : Node)
    (h : lookupNode g nm = some nd) : nd ∈ g.nodes.map Prod.snd := by
  simp only [lookupNode] at h
  cases hf : g.nodes.find? (fun kv => kv.1 == nm) with
  | none => rw [hf] at h; cases h
  | some kv =>
    rw [hf] at h
    have h2 : kv.2 = nd := Option.some.inj h
    rw [← h2]
    exact List.mem_map_of_mem Prod.snd (List.mem_of_find?_eq_some hf)

/-- Structure of every candidate produced by `recurse`: the accumulated
prefix followed by a comma-glued chain of edge keywords, all satisfying a
node-local property `Q`, none excluded, and the last one never junk. -/
lemma recurse_tokens (g : Graph) (excl junk : List Str) (Q : Str → Prop)
    (hg : ∀ nd ∈ g.nodes.map Prod.snd, ∀ kv ∈ nd.edges, Q kv.1) :
    ∀ fuel (nopt : Option Node) so_far c,
      (∀ nd, nopt = some nd → ∀ kv ∈ nd.edges, Q kv.1) →
      c ∈ recurseF g excl junk fuel nopt so_far →
      ∃ ts, ts ≠ [] ∧ c = so_far ++ ',' :: glue ts ∧
        (∀ t ∈ ts, Q t ∧ excl.contains t = false) ∧
        (∀ x, ts.getLast? = some x → junk.contains x = false) := by
  intro fuel
  induction fuel with
  | zero =>
    intro nopt so_far c _ hc
    simp [recurseF] at hc
  | succ n ih =>
    intro nopt so_far c hn hc
    cases nopt with
    | none => simp [recurseF] at hc
    | some nd =>
      simp only [recurseF] at hc
      rw [List.mem_flatten] at hc
      obtain ⟨l, hl, hcl⟩ := hc
      rw [List.mem_map] at hl
      obtain ⟨kv, hkv, hfl⟩ := hl
      subst hfl
      by_cases hex : excl.contains kv.1 = true
      · rw [if_pos hex] at hcl
        cases hcl
      · rw [if_neg hex] at hcl
        rw [List.mem_append] at hcl
        have hQ : Q kv.1 := hn nd rfl kv hkv
        cases hcl with
        | inl hcl =>
          by_cases hjn : junk.contains kv.1 = true
          · rw [if_pos hjn] at hcl
            cases hcl
          · rw [if_neg hjn] at hcl
            have hc2 : c = so_far ++ ',' :: kv.1 := by
              simpa using hcl
            refine ⟨[kv.1], by simp, ?_, ?_, ?_⟩
            · rw [hc2]
              rfl
            · intro t ht
              rw [List.mem_singleton] at ht
              subst ht
              exact ⟨hQ, by simpa using hex⟩
            · intro x hx
              simp only [List.getLast?_singleton, Option.some.injEq] at hx
              subst hx
              simpa using hjn
        | inr hcl =>
          have hn2 : ∀ nd2, kv.2.destination.bind (fun d => lookupNode g d)
              = some nd2 → ∀ kv2 ∈ nd2.edges, Q kv2.1 := by
            intro nd2 hnd2 kv2 hkv2
            rw [Option.bind_eq_some] at hnd2
            obtain ⟨dn, _, hlook⟩ := hnd2
            exact hg nd2 (lookupNode_mem g dn nd2 hlook) kv2 hkv2
          obtain ⟨ts2, hne2, hc2, hQ2, hlast2⟩ := ih _ _ _ hn2 hcl
          refine ⟨kv.1 :: ts2, by simp, ?_, ?_, ?_⟩
          · rw [hc2, glue_cons_of_ne_nil kv.1 ts2 hne2]
            simp
          · intro t ht
            rcases List.mem_cons.mp ht with h | h
            · subst h
              exact ⟨hQ, by simpa using hex⟩
            · exact hQ2 t h
          · intro x hx
            refine hlast2 x ?_
            rw [← hx]
            cases ts2 with
            | nil => exact absurd rfl hne2
            | cons a rest => simp [List.getLast?]

/-- Well-formedness of an edge keyword with respect to a junk list:
nonempty, comma-free, and no nonempty junk word is a proper suffix. -/
def kwdOK (junk : List Str) (k : Str) : Prop :=
  k ≠ [] ∧ ',' ∉ k ∧ ∀ j ∈ junk, j ≠ [] → j <:+ k → k = j

instance (junk : List Str) (k : Str) : Decidable (kwdOK junk k) := by
  unfold kwdOK
  infer_instance

lemma resolveKeyR_isSome (rules : Rules) (ob key : Str)
    (h : resolveKeyR rules ob = some key) : (lookupDict rules key).isSome = true := by
  unfold resolveKeyR at h
  split at h
  · cases h
    assumption
  · split at h
    · cases h
      assumption
    · cases h

lemma lookupDict_mem (l : List (Str × α)) (k : Str) (v : α)
    (h : lookupDict l k = some v) : (k, v) ∈ l := by
  simp only [lookupDict] at h
  cases hf : l.find? (fun kv => kv.1 == k) with
  | none => rw [hf] at h; cases h
  | some kv =>
    rw [hf] at h
    have h2 : kv.2 = v := Option.some.inj h
    have h3 := List.find?_some hf
    have h4 : kv.1 = k := by simpa using h3
    have : kv = (k, v) := by
      cases kv
      simp only at h2 h4
      rw [h2, h4]
    rw [← this]
    exact List.mem_of_find?_eq_some hf

lemma rules_dict_entries_wf :
    ∀ kv ∈ rules_dict, (∀ j ∈ kv.2.1, ',' ∉ j) ∧ ∀ e ∈ kv.2.2, e ≠ [] := by
  decide

lemma default_junk_comma_free :
    ∀ j ∈ ((lookupDict rules_dict (("default").data)).getD ([], [])).1, ',' ∉ j := by
  decide

lemma default_excl_ne_nil :
    ∀ e ∈ ((lookupDict rules_dict (("default").data)).getD ([], [])).2, e ≠ [] := by
  decide

lemma mergedJunk_comma_free (ob key : Str) (hk : resolveKey ob = some key) :
    ∀ j ∈ mergedJunk key, ',' ∉ j := by
  intro j hj
  unfold mergedJunk mergedJunkR at hj
  rw [List.mem_append] at hj
  cases hj with
  | inl hj => exact default_junk_comma_free j hj
  | inr hj =>
    have hs := resolveKeyR_isSome rules_dict ob key hk
    obtain ⟨v, hv⟩ := Option.isSome_iff_exists.mp hs
    rw [hv] at hj
    exact (rules_dict_entries_wf (key, v) (lookupDict_mem _ _ _ hv)).1 j hj

lemma mergedExcl_ne_nil (ob key : Str) (hk : resolveKey ob = some key) :
    ∀ e ∈ mergedExcl key, e ≠ [] := by
  intro e he
  unfold mergedExcl mergedExclR at he
  rw [List.mem_append] at he
  cases he with
  | inl he => exact default_excl_ne_nil e he
  | inr he =>
    have hs := resolveKeyR_isSome rules_dict ob key hk
    obtain ⟨v, hv⟩ := Option.isSome_iff_exists.mp hs
    rw [hv] at he
    exact (rules_dict_entries_wf (key, v) (lookupDict_mem _ _ _ hv)).2 e he

/-- C10: with no prefix requested, every string returned by
`get_obsmodes` begins with a comma: `recurse` seeds every candidate with
a `','` before its first keyword, and junk stripping never removes the
leading separator. -/
theorem C10_leading_comma (g : Graph) (env : Option Str → List Str) (fuel : Nat)
    (obsmode : Str) (out : List Str)
    (h : get_obsmodes g env fuel obsmode false = .ok out) :
    ∀ s ∈ out, ∃ r, s = ',' :: r := by
  unfold get_obsmodes get_obsmodesR at h
  cases hk : resolveKeyR rules_dict obsmode with
  | none => simp only [hk] at h; cases h
  | some key =>
    simp only [hk] at h
    by_cases hx : ((splitOn ',' obsmode).any
        fun o => (mergedExclR rules_dict key).contains o) = true
    · rw [if_pos hx] at h
      cases h
    · rw [if_neg hx] at h
      cases hT : traverseState g env obsmode true with
      | error e => simp only [hT] at h; cases h
      | ok st =>
        simp only [hT] at h
        cases hoff : st.path.offset with
        | none => simp only [hoff] at h; cases h
        | some off =>
          simp only [hoff] at h
          cases hlk : lookupNode g off with
          | none => simp only [hlk] at h; cases h
          | some startnode =>
            simp only [hlk] at h
            have hout : out = process (mergedJunkR rules_dict key) none
                (recurseF g (mergedExclR rules_dict key)
                  (mergedJunkR rules_dict key) fuel (some startnode) []) :=
              (Except.ok.inj h).symm
            intro s hs
            rw [hout] at hs
            have hproc : process (mergedJunkR rules_dict key) none
                (recurseF g (mergedExclR rules_dict key)
                  (mergedJunkR rules_dict key) fuel (some startnode) [])
                = stripJunk (mergedJunkR rules_dict key)
                  (recurseF g (mergedExclR rules_dict key)
                    (mergedJunkR rules_dict key) fuel (some startnode) []) := rfl
            rw [hproc, stripJunk_map] at hs
            obtain ⟨c, hc, hcs⟩ := List.mem_map.mp hs
            obtain ⟨ts, hne, hform, -, -⟩ := recurse_tokens g
              (mergedExclR rules_dict key) (mergedJunkR rules_dict key)
              (fun _ => True) (fun _ _ _ _ => trivial) fuel (some startnode) [] c
              (fun _ _ _ _ => trivial) hc
            rw [List.nil_append] at hform
            have hjcf : ∀ j ∈ mergedJunk key, ',' ∉ j :=
              mergedJunk_comma_free obsmode key hk
            obtain ⟨ys, hys⟩ := stripOne_head (mergedJunk key) hjcf (glue ts)
            refine ⟨ys, ?_⟩
            rw [← hcs, hform]
            exact hys.symm ▸ rfl

/-- C10 witness: the concrete output string of `gC1` starts with a
comma. -/
theorem C10_witness : ∃ r, ((",xwfc2").data : Str) = ',' :: r :=
  C10_leading_comma gC1 envT 5 (("acs,wfc1").data) [(",xwfc2").data]
    (by decide) ((",xwfc2").data) (by decide)

lemma contains_true_of_mem (l : List Str) (x : Str) (h : x ∈ l) :
    l.contains x = true := by
  simpa using h

lemma splitOn_cons_sep (sep : Char) (x : Str) :
    splitOn sep (sep :: x) = [] :: splitOn sep x := by
  simp [splitOn]

/-- The filtered token list of a stripped candidate is nonempty: the last
token is never junk, so it survives. -/
lemma filter_junk_ne_nil (junk : List Str) (ts : List Str) (hne : ts ≠ [])
    (hlast : ∀ x, ts.getLast? = some x → junk.contains x = false) :
    ts.filter (fun t => !(junk.contains t)) ≠ [] := by
  have hlastx := List.getLast?_eq_getLast ts hne
  have hpred : (fun t => !(junk.contains t)) (ts.getLast hne) = true := by
    show (!(junk.contains (ts.getLast hne))) = true
    rw [hlast (ts.getLast hne) hlastx]
    rfl
  have hkeep := getLast?_filter_keep (fun t => !(junk.contains t)) ts hne hpred
  intro hcontra
  rw [hcontra, hlastx] at hkeep
  cases hkeep

/-- C7 amended: on a graph whose edge keywords are nonempty, comma-free,
and have no nonempty junk word as a proper suffix, the post-processed
output of every `recurse` candidate contains no nonempty junk keyword as
a comma-separated token; and requesting a prefix returns the bare prefix
followed by each stripped candidate with the prefix prepended. -/
theorem C7_junk_stripping (g : Graph) (excl junk : List Str) (fuel : Nat)
    (nd : Node) (p : Str) (ms : List Str)
    (hjcf : ∀ j ∈ junk, ',' ∉ j)
    (hg : ∀ n ∈ g.nodes.map Prod.snd, ∀ kv ∈ n.edges, kwdOK junk kv.1)
    (hn : ∀ kv ∈ nd.edges, kwdOK junk kv.1) :
    (∀ c ∈ stripJunk junk (recurseF g excl junk fuel (some nd) []),
       ∀ j ∈ junk, j ≠ [] → j ∉ splitOn ',' c) ∧
    process junk (some p) ms = p :: (stripJunk junk ms).map (fun m => p ++ m) := by
  constructor
  · intro c hc j hj hjne
    rw [stripJunk_map] at hc
    obtain ⟨c0, hc0, hcs⟩ := List.mem_map.mp hc
    obtain ⟨ts, hne, hform, hQ, hlast⟩ := recurse_tokens g excl junk (kwdOK junk)
      hg fuel (some nd) [] c0
      (fun nd2 hnd2 => by
        have : nd2 = nd := (Option.some.inj hnd2).symm
        rw [this]
        exact hn) hc0
    rw [List.nil_append] at hform
    rw [hform] at hcs
    rw [stripOne_glue junk ts hjcf
      (fun t ht => ⟨(hQ t ht).1.1, (hQ t ht).1.2.1⟩)
      (fun t ht j2 hj2 hj2ne => (hQ t ht).1.2.2 j2 hj2 hj2ne)
      hne
      (fun j2 hj2 hcontra => by
        have := hlast j2 hcontra
        rw [contains_true_of_mem junk j2 hj2] at this
        cases this)] at hcs
    intro hmem
    rw [← hcs] at hmem
    have hne2 : ts.filter (fun t => !(junk.contains t)) ≠ [] :=
      filter_junk_ne_nil junk ts hne hlast
    rw [splitOn_cons_sep, splitOn_glue _ hne2
      (fun t ht => (hQ t (List.mem_of_mem_filter ht)).1.2.1)] at hmem
    rcases List.mem_cons.mp hmem with h1 | h1
    · exact hjne h1
    · have := List.of_mem_filter h1
      rw [contains_true_of_mem junk j hj] at this
      cases this
  · rfl

/-- The third node of `gC1`, used to instantiate the C7 witness. -/
def ndB : Node :=
  { name := ("B").data,
    edges := [(("xwfc2").data, mkEdge (("xwfc2").data) none)] }

/-- C7 witness: on `gC1`'s terminal node, no nonempty junk keyword
survives as a token and the prefix clause holds. -/
theorem C7_junk_witness :
    ("wfc1").data ∉ splitOn ',' ((",xwfc2").data) ∧
      process (mergedJunk (("acs,wfc1").data)) (some (("acs,wfc1").data))
          [(",xwfc2").data]
        = ("acs,wfc1").data ::
          (stripJunk (mergedJunk (("acs,wfc1").data)) [(",xwfc2").data]).map
            (fun m => ("acs,wfc1").data ++ m) :=
  ⟨(C7_junk_stripping gC1 (mergedExcl (("acs,wfc1").data))
      (mergedJunk (("acs,wfc1").data)) 5 ndB (("acs,wfc1").data) [(",xwfc2").data]
      (by decide) (by decide) (by decide)).1 ((",xwfc2").data) (by decide)
      (("wfc1").data) (by decide) (by decide),
   (C7_junk_stripping gC1 (mergedExcl (("acs,wfc1").data))
      (mergedJunk (("acs,wfc1").data)) 5 ndB (("acs,wfc1").data) [(",xwfc2").data]
      (by decide) (by decide) (by decide)).2⟩

/-- C1 amended: on a graph whose edge keywords are nonempty, comma-free,
and have no nonempty junk word as a proper suffix, no excluded keyword of
the resolved mode ever appears as a comma-separated token of a string
returned by `get_obsmodes` (with or without a prefix); `recurse` skips
only whole-token matches, so substring containment is not excluded. -/
theorem C1_token_exclusion (g : Graph) (env : Option Str → List Str) (fuel : Nat)
    (obsmode : Str) (pfx : Bool) (key : Str) (out : List Str)
    (hk : resolveKey obsmode = some key)
    (hwf : ∀ nd ∈ g.nodes.map Prod.snd, ∀ kv ∈ nd.edges, kwdOK (mergedJunk key) kv.1)
    (h : get_obsmodes g env fuel obsmode pfx = .ok out) :
    ∀ k2 ∈ mergedExcl key, ∀ s ∈ out, k2 ∉ splitOn ',' s := by
  have hk' : resolveKeyR rules_dict obsmode = some key := hk
  have hwf' : ∀ nd ∈ g.nodes.map Prod.snd, ∀ kv ∈ nd.edges,
      kwdOK (mergedJunkR rules_dict key) kv.1 := hwf
  have hjcf : ∀ j ∈ mergedJunkR rules_dict key, ',' ∉ j :=
    mergedJunk_comma_free obsmode key hk
  unfold get_obsmodes get_obsmodesR at h
  rw [hk'] at h
  simp only at h
  by_cases hx : ((splitOn ',' obsmode).any
      fun o => (mergedExclR rules_dict key).contains o) = true
  · rw [if_pos hx] at h
    cases h
  · rw [if_neg hx] at h
    have hall : ∀ o ∈ splitOn ',' obsmode,
        (mergedExclR rules_dict key).contains o = false := by
      intro o ho
      cases hcc : (mergedExclR rules_dict key).contains o with
      | false => rfl
      | true => exact absurd (List.any_eq_true.mpr ⟨o, ho, hcc⟩) hx
    cases hT : traverseState g env obsmode true with
    | error e => simp only [hT] at h; cases h
    | ok st =>
      simp only [hT] at h
      cases hoff : st.path.offset with
      | none => simp only [hoff] at h; cases h
      | some off =>
        simp only [hoff] at h
        cases hlk : lookupNode g off with
        | none => simp only [hlk] at h; cases h
        | some startnode =>
          simp only [hlk] at h
          have hout : out = process (mergedJunkR rules_dict key)
              (if pfx = true then some obsmode else none)
              (recurseF g (mergedExclR rules_dict key)
                (mergedJunkR rules_dict key) fuel (some startnode) []) :=
            (Except.ok.inj h).symm
          have hcand : ∀ c0 ∈ recurseF g (mergedExclR rules_dict key)
              (mergedJunkR rules_dict key) fuel (some startnode) [],
              ∃ ts2, ts2 ≠ [] ∧
                stripOne (mergedJunkR rules_dict key) c0 = ',' :: glue ts2 ∧
                (∀ t ∈ ts2, ',' ∉ t) ∧
                (∀ t ∈ ts2, (mergedExclR rules_dict key).contains t = false) := by
            intro c0 hc0
            obtain ⟨ts, hne, hform, hQ, hlast⟩ := recurse_tokens g
              (mergedExclR rules_dict key) (mergedJunkR rules_dict key)
              (kwdOK (mergedJunkR rules_dict key)) hwf' fuel (some startnode) [] c0
              (fun nd2 hnd2 => by
                have hthis : nd2 = startnode := (Option.some.inj hnd2).symm
                rw [hthis]
                exact hwf' startnode (lookupNode_mem g off startnode hlk)) hc0
            rw [List.nil_append] at hform
            refine ⟨ts.filter (fun t => !((mergedJunkR rules_dict key).contains t)),
              filter_junk_ne_nil _ ts hne hlast, ?_, ?_, ?_⟩
            · rw [hform]
              rw [stripOne_glue _ ts hjcf
                (fun t ht => ⟨(hQ t ht).1.1, (hQ t ht).1.2.1⟩)
                (fun t ht j2 hj2 hj2ne => (hQ t ht).1.2.2 j2 hj2 hj2ne)
                hne
                (fun j2 hj2 hcontra => by
                  have := hlast j2 hcontra
                  rw [contains_true_of_mem _ j2 hj2] at this
                  cases this)]
            · exact fun t ht => (hQ t (List.mem_of_mem_filter ht)).1.2.1
            · exact fun t ht => (hQ t (List.mem_of_mem_filter ht)).2
          intro k2 hk2 s hs
          have hk2c : (mergedExclR rules_dict key).contains k2 = true :=
            contains_true_of_mem _ k2 hk2
          rw [hout] at hs
          by_cases hp : pfx = true
          · subst hp
            rw [if_pos rfl] at hs
            have hproc : process (mergedJunkR rules_dict key) (some obsmode)
                (recurseF g (mergedExclR rules_dict key)
                  (mergedJunkR rules_dict key) fuel (some startnode) [])
                = obsmode :: (stripJunk (mergedJunkR rules_dict key)
                    (recurseF g (mergedExclR rules_dict key)
                      (mergedJunkR rules_dict key) fuel (some startnode) [])).map
                  (fun m => obsmode ++ m) := rfl
            rw [hproc] at hs
            rcases List.mem_cons.mp hs with hs1 | hs1
            · subst hs1
              intro hmem
              rw [hall k2 hmem] at hk2c
              cases hk2c
            · obtain ⟨m, hm, hms⟩ := List.mem_map.mp hs1
              rw [stripJunk_map] at hm
              obtain ⟨c0, hc0, hcs⟩ := List.mem_map.mp hm
              obtain ⟨ts2, hne2, hstrip, hcf2, hex2⟩ := hcand c0 hc0
              rw [hstrip] at hcs
              rw [← hms, ← hcs]
              intro hmem
              rw [splitOn_append ',' obsmode (glue ts2),
                splitOn_glue ts2 hne2 hcf2] at hmem
              rcases List.mem_append.mp hmem with h1 | h1
              · rw [hall k2 h1] at hk2c
                cases hk2c
              · rw [hex2 k2 h1] at hk2c
                cases hk2c
          · have hpf : pfx = false := by
              cases pfx
              · rfl
              · exact absurd rfl hp
            subst hpf
            rw [if_neg (by simp)] at hs
            have hproc : process (mergedJunkR rules_dict key) none
                (recurseF g (mergedExclR rules_dict key)
                  (mergedJunkR rules_dict key) fuel (some startnode) [])
                = stripJunk (mergedJunkR rules_dict key)
                  (recurseF g (mergedExclR rules_dict key)
                    (mergedJunkR rules_dict key) fuel (some startnode) []) := rfl
            rw [hproc, stripJunk_map] at hs
            obtain ⟨c0, hc0, hcs⟩ := List.mem_map.mp hs
            obtain ⟨ts2, hne2, hstrip, hcf2, hex2⟩ := hcand c0 hc0
            rw [hstrip] at hcs
            rw [← hcs]
            intro hmem
            rw [splitOn_cons_sep, splitOn_glue ts2 hne2 hcf2] at hmem
            rcases List.mem_cons.mp hmem with h1 | h1
            · exact mergedExcl_ne_nil obsmode key hk k2 hk2 h1
            · rw [hex2 k2 h1] at hk2c
              cases hk2c

/-- C1 amended witness: `wfc2` is not a token of the output of
`get_obsmodes(acs,wfc1)` on `gC1` (it only occurs as a substring). -/
theorem C1_token_exclusion_witness :
    ("wfc2").data ∉ splitOn ',' ((",xwfc2").data) :=
  C1_token_exclusion gC1 envT 5 (("acs,wfc1").data) false (("acs,wfc1").data)
    [(",xwfc2").data] (by decide) (by decide) (by decide)
    (("wfc2").data) (by decide) ((",xwfc2").data) (by decide)

end Graphtab
